import Mathlib

/-!
Verification of the schema differ (`sql_schema_differ.rs`) and the SQLite
connection-string parser (`connector/sqlite.rs`) of the repository.

The differ orchestrator `calculate_steps` and the helpers in
`sql_schema_differ.rs` are embedded faithfully from the source.  The data
model (schemas, tables, columns), the `DifferDatabase` pairing, the
`Flavour` interface, the `TableChange`/`SqlMigrationStep` vocabulary and
the step ordering are modelled from the specification, because the files
defining them (`pair.rs`, `differ_database.rs`, `table.rs`, `column.rs`,
`sql_migration.rs`, the flavour implementations) are not part of the
sources under verification; each such definition carries a
`Modelled from the spec:` comment.

The single runtime source of nondeterminism in the differ — the iteration
order of the `HashSet` used by `drop_indexes` — is made explicit as a
function parameter `π` of `calculate_steps`; a run of the program
corresponds to a choice of `π` that permutes its argument.
-/

namespace Prisma

/-- Modelled from the spec: the two-slot (previous, next) container
(`pair.rs` is not under the verified sources). -/
structure Pair (α : Type) where
  previous : α
  next : α
deriving DecidableEq, Repr, Inhabited

/-- Modelled from the spec: column nullability ("arity"). -/
inductive ColumnArity where
  | required
  | nullable
  | list
deriving DecidableEq, Repr, Inhabited

def ColumnArity.is_required : ColumnArity → Bool
  | .required => true
  | _ => false

def ColumnArity.is_nullable : ColumnArity → Bool
  | .nullable => true
  | _ => false

/-- Modelled from the spec: the closed set of column type families. -/
inductive ColumnTypeFamily where
  | int
  | bigInt
  | float
  | decimal
  | boolean
  | string
  | dateTime
  | binary
  | json
  | uuid
  | enum (name : String)
  | unsupported
deriving DecidableEq, Repr, Inhabited

/-- Modelled from the spec: a column of a table. -/
structure Column where
  name : String
  tpe : ColumnTypeFamily
  arity : ColumnArity
  default : Option String
  autoIncrement : Bool
deriving DecidableEq, Repr, Inhabited

/-- Modelled from the spec: index kind. -/
inductive IndexKind where
  | normal
  | unique
  | fulltext
deriving DecidableEq, Repr, Inhabited

/-- Modelled from the spec: an index, with an ordered list of column
positions. -/
structure Index where
  name : String
  kind : IndexKind
  columns : List Nat
deriving DecidableEq, Repr, Inhabited

/-- Modelled from the spec: a foreign key with ordered constrained column
positions, a referenced table name, ordered referenced column names and
referential actions. -/
structure ForeignKey where
  constrainedColumns : List Nat
  referencedTable : String
  referencedColumns : List String
  onDeleteAction : String
  onUpdateAction : String
deriving DecidableEq, Repr, Inhabited

/-- Modelled from the spec: a table. The primary key is an ordered list of
column positions. -/
structure Table where
  name : String
  columns : List Column
  indexes : List Index
  foreignKeys : List ForeignKey
  primaryKey : Option (List Nat)
deriving DecidableEq, Repr, Inhabited

/-- Modelled from the spec: an enum definition. -/
structure SqlEnum where
  name : String
  values : List String
deriving DecidableEq, Repr, Inhabited

/-- Modelled from the spec: an immutable schema snapshot. -/
structure SqlSchema where
  tables : List Table
  enums : List SqlEnum
deriving DecidableEq, Repr, Inhabited

/-- Out-of-range column positions resolve to this placeholder, mirroring
that walkers index into their owning table. -/
def defaultColumn : Column :=
  { name := "", tpe := .unsupported, arity := .required, default := none, autoIncrement := false }

def Table.columnAt (t : Table) (i : Nat) : Column :=
  t.columns.getD i defaultColumn

/-- Modelled from the spec: the three-valued castability verdict. -/
inductive ColumnTypeChange where
  | safeCast
  | riskyCast
  | notCastable
deriving DecidableEq, Repr, Inhabited

/-- Modelled from the spec: the bitset of per-column attribute changes
(`column.rs` is not under the verified sources). -/
structure ColumnChanges where
  typeChanged : Bool
  arityChanged : Bool
  defaultChanged : Bool
  autoIncrementChanged : Bool
deriving DecidableEq, Repr, Inhabited

def ColumnChanges.differs_in_something (c : ColumnChanges) : Bool :=
  c.typeChanged || c.arityChanged || c.defaultChanged || c.autoIncrementChanged

/-- Modelled from the spec: a change inside an `AlterTable` step. -/
inductive TableChange where
  | dropPrimaryKey
  | dropColumn (columnId : Nat)
  | addColumn (columnId : Nat)
  | alterColumn (columnId : Pair Nat) (changes : ColumnChanges)
      (typeChange : Option ColumnTypeChange)
  | dropAndRecreateColumn (columnId : Pair Nat) (changes : ColumnChanges)
  | addPrimaryKey
deriving DecidableEq, Repr, Inhabited

/-- Modelled from the spec: the `AlterEnum` payload, enriched by the differ
with the previous usages of the enum as a column default. -/
structure AlterEnum where
  index : Pair Nat
  previousUsagesAsDefault : List ((Nat × Nat) × Option (Nat × Nat))
deriving DecidableEq, Repr, Inhabited

/-- Modelled from the spec: one table entry of a `RedefineTables` step. -/
structure RedefineTable where
  tableIds : Pair Nat
  droppedPrimaryKey : Bool
  addedColumns : List Nat
  droppedColumns : List Nat
  columnPairs : List (Pair Nat × ColumnChanges × Option ColumnTypeChange)
deriving DecidableEq, Repr, Inhabited

/-- Modelled from the spec: the closed set of migration steps
(`sql_migration.rs` is not under the verified sources). -/
inductive SqlMigrationStep where
  | createTable (tableId : Nat)
  | dropTable (tableId : Nat)
  | addForeignKey (tableId : Nat) (foreignKeyIndex : Nat)
  | dropForeignKey (tableId : Nat) (foreignKeyIndex : Nat)
  | alterTable (tableIds : Pair Nat) (changes : List TableChange)
  | createIndex (previousTableId : Option Nat) (tableId : Nat) (indexIndex : Nat)
  | dropIndex (tableId : Nat) (indexIndex : Nat)
  | alterIndex (table : Pair Nat) (index : Pair Nat)
  | redefineIndex (table : Pair Nat) (index : Pair Nat)
  | alterEnum (payload : AlterEnum)
  | createEnum (enumIndex : Nat)
  | dropEnum (enumIndex : Nat)
  | redefineTables (tables : List RedefineTable)
deriving DecidableEq, Repr, Inhabited

/-- Modelled from the spec: an index-side step requested by the flavour's
`push_index_changes_for_column_changes` hook ("index-side steps driven by
column attribute changes"). -/
inductive IndexChangeRequest where
  | create (previousTableId : Option Nat) (tableId : Nat) (indexIndex : Nat)
  | drop (tableId : Nat) (indexIndex : Nat)
deriving DecidableEq, Repr, Inhabited

def IndexChangeRequest.toStep : IndexChangeRequest → SqlMigrationStep
  | .create p t i => .createIndex p t i
  | .drop t i => .dropIndex t i

/-- Modelled from the spec: the flavour interface of §4.5 — boolean
predicates, dialect name-equality (expressed as name normalisation, which
is how case-insensitive and lowercasing dialects compare names), the
flavour-owned castability lattice, and the index-side hook. -/
structure Flavour where
  tableNameNormalize : String → String
  columnNameNormalize : String → String
  shouldPushForeignKeysFromCreatedTables : Bool
  shouldDropForeignKeysFromDroppedTables : Bool
  shouldCreateIndexesFromCreatedTables : Bool
  shouldSkipIndexForNewTable : Index → Bool
  shouldDropIndexesFromDroppedTables : Bool
  shouldSkipFkIndexes : Bool
  indexesShouldBeRecreatedAfterColumnDrop : Bool
  shouldRecreateThePrimaryKeyOnColumnRecreate : Bool
  canAlterIndex : Bool
  canCopeWithForeignKeyColumnBecomingNonnullable : Bool
  referentialActionsEnabled : Bool
  redefinesTables : Bool
  classifyCast : ColumnTypeFamily → ColumnArity → ColumnTypeFamily → ColumnArity → ColumnTypeChange
  indexChangesForColumnChanges : Pair Nat → Pair Nat → ColumnChanges → List IndexChangeRequest

def Flavour.table_names_match (fl : Flavour) (names : Pair String) : Bool :=
  fl.tableNameNormalize names.previous == fl.tableNameNormalize names.next

def Flavour.column_names_match (fl : Flavour) (names : Pair String) : Bool :=
  fl.columnNameNormalize names.previous == fl.columnNameNormalize names.next

/-! ## Cross-schema pairing (`DifferDatabase`)

Modelled from the spec: the `DifferDatabase` precomputes the matching
table pairs under dialect identity rules, and name-indexed column tables
for each side (`differ_database.rs` is not under the verified sources).
A previous entity is paired with the first next entity whose name matches
under the flavour's identity rule. -/

/-- The index of the first list element satisfying a predicate. -/
def firstMatchIdx {α : Type} (p : α → Bool) : List α → Option Nat
  | [] => none
  | x :: xs => if p x then some 0 else (firstMatchIdx p xs).map (· + 1)

def findTableMatch (fl : Flavour) (tables : List Table) (name : String) : Option Nat :=
  firstMatchIdx (fun t => fl.table_names_match ⟨name, t.name⟩) tables

/-- Table pairs (previous table id, next table id), in previous-schema order. -/
def tablePairs (fl : Flavour) (schemas : Pair SqlSchema) : List (Pair Nat) :=
  (List.range schemas.previous.tables.length).filterMap fun t =>
    (findTableMatch fl schemas.next.tables (schemas.previous.tables.getD t default).name).map
      fun t2 => ⟨t, t2⟩

/-- Tables present only in the next schema. -/
def createdTables (fl : Flavour) (schemas : Pair SqlSchema) : List Nat :=
  (List.range schemas.next.tables.length).filter fun t =>
    !schemas.previous.tables.any fun p =>
      fl.table_names_match ⟨p.name, (schemas.next.tables.getD t default).name⟩

/-- Tables present only in the previous schema. -/
def droppedTables (fl : Flavour) (schemas : Pair SqlSchema) : List Nat :=
  (List.range schemas.previous.tables.length).filter fun t =>
    !schemas.next.tables.any fun n =>
      fl.table_names_match ⟨(schemas.previous.tables.getD t default).name, n.name⟩

def Pair.tables (schemas : Pair SqlSchema) (ids : Pair Nat) : Pair Table :=
  ⟨schemas.previous.tables.getD ids.previous default,
   schemas.next.tables.getD ids.next default⟩

def findColumnMatch (fl : Flavour) (cols : List Column) (name : String) : Option Nat :=
  firstMatchIdx (fun c => fl.column_names_match ⟨name, c.name⟩) cols

/-- Column pairs (previous column id, next column id) of a table pair, in
previous-table order. -/
def columnPairs (fl : Flavour) (tables : Pair Table) : List (Pair Nat) :=
  (List.range tables.previous.columns.length).filterMap fun c =>
    (findColumnMatch fl tables.next.columns (tables.previous.columnAt c).name).map
      fun c2 => ⟨c, c2⟩

/-- Columns present only in the previous table. -/
def droppedColumns (fl : Flavour) (tables : Pair Table) : List Nat :=
  (List.range tables.previous.columns.length).filter fun c =>
    !tables.next.columns.any fun n =>
      fl.column_names_match ⟨(tables.previous.columnAt c).name, n.name⟩

/-- Columns present only in the next table. -/
def addedColumns (fl : Flavour) (tables : Pair Table) : List Nat :=
  (List.range tables.next.columns.length).filter fun c =>
    !tables.previous.columns.any fun p =>
      fl.column_names_match ⟨p.name, (tables.next.columnAt c).name⟩

/-! ## Column change classification

Modelled from the spec: a column pair yields `(ColumnChanges, Option
ColumnTypeChange)`; the castability verdict is computed by the flavour
from the type-family pair and arity, and is present exactly when the type
changed (`column.rs` is not under the verified sources). -/

def columnTypeChangeOf (fl : Flavour) (prev next : Column) : Option ColumnTypeChange :=
  if prev.tpe == next.tpe then none
  else some (fl.classifyCast prev.tpe prev.arity next.tpe next.arity)

def columnChangesOf (_fl : Flavour) (prev next : Column) : ColumnChanges :=
  { typeChanged := prev.tpe != next.tpe
    arityChanged := prev.arity != next.arity
    defaultChanged := prev.default != next.default
    autoIncrementChanged := prev.autoIncrement != next.autoIncrement }

/-- The `(changes, type_change)` pair returned by `all_changes` for the
columns at a column-id pair. -/
def allChanges (fl : Flavour) (tables : Pair Table) (ids : Pair Nat) :
    ColumnChanges × Option ColumnTypeChange :=
  let prev := tables.previous.columnAt ids.previous
  let next := tables.next.columnAt ids.next
  (columnChangesOf fl prev next, columnTypeChangeOf fl prev next)

/-! ## Index pairing

Modelled from the spec: indexes are paired by name and structure; a kind
change is a recreate (drop + create) rather than an alter
(`table.rs` is not under the verified sources). -/

def indexesMatch (prev next : Index) : Bool :=
  prev.name == next.name && prev.kind == next.kind && prev.columns == next.columns

def indexPairs (tables : Pair Table) : List (Pair Nat) :=
  (List.range tables.previous.indexes.length).filterMap fun i =>
    (firstMatchIdx (fun n =>
        indexesMatch (tables.previous.indexes.getD i default) n) tables.next.indexes).map
      fun i2 => ⟨i, i2⟩

def droppedIndexes (tables : Pair Table) : List Nat :=
  (List.range tables.previous.indexes.length).filter fun i =>
    !tables.next.indexes.any fun n =>
      indexesMatch (tables.previous.indexes.getD i default) n

def createdIndexes (tables : Pair Table) : List Nat :=
  (List.range tables.next.indexes.length).filter fun i =>
    !tables.previous.indexes.any fun p =>
      indexesMatch p (tables.next.indexes.getD i default)

/-- Modelled from the spec: rename detection — the only in-place index
change a flavour may declare ("renames only"). -/
def indexShouldBeRenamed (pair : Pair Index) : Bool :=
  pair.previous.name != pair.next.name

/-- Modelled from the spec: an index that merely backs a foreign key
(MySQL implicit FK indexes; `index.rs` is not under the verified sources). -/
def indexCoversFk (t : Table) (i : Index) : Bool :=
  t.foreignKeys.any fun fk => fk.constrainedColumns == i.columns

/-! ## Primary-key diffing

Modelled from the spec: a primary key is considered changed if its column
list differs (compared through column names, since positions may shift). -/

def pkColumnNames (t : Table) : Option (List String) :=
  t.primaryKey.map fun pk => pk.map fun i => (t.columnAt i).name

def createdPrimaryKey (tables : Pair Table) : Option (List Nat) :=
  match tables.next.primaryKey with
  | none => none
  | some pk =>
    if tables.previous.primaryKey.isNone || pkColumnNames tables.previous != pkColumnNames tables.next
    then some pk else none

def droppedPrimaryKey (tables : Pair Table) : Option (List Nat) :=
  match tables.previous.primaryKey with
  | none => none
  | some pk =>
    if tables.next.primaryKey.isNone || pkColumnNames tables.previous != pkColumnNames tables.next
    then some pk else none

/-! ## Foreign-key matching (embedded from `foreign_keys_match` in
`sql_schema_differ.rs`) -/

/-- Constrained columns of a foreign key, resolved in its owning table. -/
def constrainedColumnsOf (t : Table) (fk : ForeignKey) : List Column :=
  fk.constrainedColumns.map t.columnAt

/-- Embedded from the source: `foreign_keys_match` (sql_schema_differ.rs,
lines 504-543). -/
def foreign_keys_match (fl : Flavour) (tables : Pair Table) (fks : Pair ForeignKey) : Bool :=
  let references_same_table :=
    fl.table_names_match ⟨fks.previous.referencedTable, fks.next.referencedTable⟩
  let references_same_column_count :=
    fks.previous.referencedColumns.length == fks.next.referencedColumns.length
  let constrains_same_column_count :=
    fks.previous.constrainedColumns.length == fks.next.constrainedColumns.length
  let constrains_same_columns :=
    ((constrainedColumnsOf tables.previous fks.previous).zip
      (constrainedColumnsOf tables.next fks.next)).all fun cols =>
      let families_match :=
        match cols.1.tpe, cols.2.tpe with
        | .uuid, .string => true
        | .string, .uuid => true
        | x, y => x == y
      let arities_ok :=
        fl.canCopeWithForeignKeyColumnBecomingNonnullable
          || (cols.1.arity == cols.2.arity
            || (cols.1.arity.is_required && cols.2.arity.is_nullable))
      cols.1.name == cols.2.name && families_match && arities_ok
  let references_same_columns :=
    (fks.previous.referencedColumns.zip fks.next.referencedColumns).all fun pair =>
      pair.1 == pair.2
  let all_match := references_same_table
    && references_same_column_count
    && constrains_same_column_count
    && constrains_same_columns
    && references_same_columns
  if fl.referentialActionsEnabled then
    let same_on_delete_action := fks.previous.onDeleteAction == fks.next.onDeleteAction
    let same_on_update_action := fks.previous.onUpdateAction == fks.next.onUpdateAction
    all_match && same_on_delete_action && same_on_update_action
  else
    all_match

/-- Foreign keys of the next table with no structurally matching previous
foreign key (`created_foreign_keys`). -/
def createdForeignKeys (fl : Flavour) (tables : Pair Table) : List Nat :=
  (List.range tables.next.foreignKeys.length).filter fun j =>
    !tables.previous.foreignKeys.any fun p =>
      foreign_keys_match fl tables ⟨p, tables.next.foreignKeys.getD j default⟩

/-- Foreign keys of the previous table with no structurally matching next
foreign key (`dropped_foreign_keys`). -/
def droppedForeignKeys (fl : Flavour) (tables : Pair Table) : List Nat :=
  (List.range tables.previous.foreignKeys.length).filter fun i =>
    !tables.next.foreignKeys.any fun n =>
      foreign_keys_match fl tables ⟨tables.previous.foreignKeys.getD i default, n⟩

/-- Embedded from the source: `enums_match` (sql_schema_differ.rs, line 545). -/
def enums_match (previous next : SqlEnum) : Bool :=
  previous.name == next.name

/-- Embedded from the source: `enum_pairs` — each previous enum paired with
the first next enum whose name matches. -/
def enumPairs (schemas : Pair SqlSchema) : List (Pair Nat) :=
  (List.range schemas.previous.enums.length).filterMap fun i =>
    (firstMatchIdx (fun n =>
        enums_match (schemas.previous.enums.getD i default) n) schemas.next.enums).map
      fun j => ⟨i, j⟩

/-- Embedded from the source: `created_enums`. -/
def createdEnums (schemas : Pair SqlSchema) : List Nat :=
  (List.range schemas.next.enums.length).filter fun j =>
    !schemas.previous.enums.any fun p =>
      enums_match p (schemas.next.enums.getD j default)

/-- Embedded from the source: `dropped_enums`. -/
def droppedEnums (schemas : Pair SqlSchema) : List Nat :=
  (List.range schemas.previous.enums.length).filter fun i =>
    !schemas.next.enums.any fun n =>
      enums_match (schemas.previous.enums.getD i default) n

/-! ## Pipeline helpers, embedded from `SqlSchemaDiffer` -/

/-- Lexicographic order on column-id pairs, the sort key of
`alter_columns` ("by (previous column_id, next column_id)"). -/
def pairLe (a b : Pair Nat) : Prop :=
  a.previous < b.previous ∨ (a.previous = b.previous ∧ a.next ≤ b.next)

instance : DecidableRel pairLe := fun a b => by
  unfold pairLe; infer_instance

def TableChange.sortKey : TableChange → Pair Nat
  | .alterColumn ids _ _ => ids
  | .dropAndRecreateColumn ids _ => ids
  | _ => ⟨0, 0⟩

def alterColumnLe (a b : TableChange) : Prop :=
  pairLe a.sortKey b.sortKey

instance : DecidableRel alterColumnLe := fun a b => by
  unfold alterColumnLe; infer_instance

/-- Embedded from the source: `alter_columns` (lines 190-232). Column
pairs with no effective change are skipped; a `NotCastable` type change
yields `DropAndRecreateColumn`, anything else an `AlterColumn`; the result
is sorted by column-id pair. -/
def alterColumnChangeFor (fl : Flavour) (tables : Pair Table) (ids : Pair Nat) :
    Option TableChange :=
  let (changes, type_change) := allChanges fl tables ids
  if !changes.differs_in_something then none
  else match type_change with
    | some .notCastable => some (.dropAndRecreateColumn ids changes)
    | some .riskyCast => some (.alterColumn ids changes (some .riskyCast))
    | some .safeCast => some (.alterColumn ids changes (some .safeCast))
    | none => some (.alterColumn ids changes none)

def alter_columns (fl : Flavour) (tables : Pair Table) : List TableChange :=
  List.insertionSort alterColumnLe
    ((columnPairs fl tables).filterMap (alterColumnChangeFor fl tables))

/-- Whether some `DropAndRecreateColumn` of `alter_columns` concerns a
column of the previous primary key (the `from_recreate` condition of
lines 242-248 and 266-272). -/
def recreatesPkColumn (fl : Flavour) (tables : Pair Table) : Bool :=
  (alter_columns fl tables).any fun tc =>
    match tc with
    | .dropAndRecreateColumn ids _ => (tables.previous.primaryKey.getD []).contains ids.previous
    | _ => false

/-- Embedded from the source: `add_primary_key` (lines 234-259). -/
def add_primary_key (fl : Flavour) (tables : Pair Table) : Option TableChange :=
  let from_psl_change :=
    ((createdPrimaryKey tables).filter fun pk => !pk.isEmpty).map fun _ => TableChange.addPrimaryKey
  if fl.shouldRecreateThePrimaryKeyOnColumnRecreate then
    from_psl_change.orElse fun _ =>
      if recreatesPkColumn fl tables then some .addPrimaryKey else none
  else
    from_psl_change

/-- Embedded from the source: `drop_primary_key` (lines 261-283). -/
def drop_primary_key (fl : Flavour) (tables : Pair Table) : Option TableChange :=
  let from_psl_change := (droppedPrimaryKey tables).map fun _ => TableChange.dropPrimaryKey
  if fl.shouldRecreateThePrimaryKeyOnColumnRecreate then
    from_psl_change.orElse fun _ =>
      if recreatesPkColumn fl tables then some .dropPrimaryKey else none
  else
    from_psl_change

/-- The `changes` list of an `AlterTable` step ("Order matters.",
lines 149-156): drop primary key, drop columns, add columns, alter
columns, add primary key. -/
def alterTableChanges (fl : Flavour) (tables : Pair Table) : List TableChange :=
  (drop_primary_key fl tables).toList
    ++ (droppedColumns fl tables).map .dropColumn
    ++ (addedColumns fl tables).map .addColumn
    ++ alter_columns fl tables
    ++ (add_primary_key fl tables).toList

/-- Modelled from the spec: `tables_to_redefine` — "SQLite does this when
FK or PK changes are requested" (the flavour implementations are not under
the verified sources). -/
def tablesToRedefine (fl : Flavour) (schemas : Pair SqlSchema) : List String :=
  if fl.redefinesTables then
    (tablePairs fl schemas).filterMap fun tp =>
      let tables := Pair.tables schemas tp
      if !(createdForeignKeys fl tables).isEmpty
          || !(droppedForeignKeys fl tables).isEmpty
          || (createdPrimaryKey tables).isSome
          || (droppedPrimaryKey tables).isSome
      then some tables.next.name else none
  else []

/-- Embedded from the source: `push_create_tables` (lines 91-106). -/
def pushCreateTables (fl : Flavour) (schemas : Pair SqlSchema) : List SqlMigrationStep :=
  (createdTables fl schemas).flatMap fun t =>
    SqlMigrationStep.createTable t ::
      (if fl.shouldPushForeignKeysFromCreatedTables then
        (List.range (schemas.next.tables.getD t default).foreignKeys.length).map fun fk =>
          .addForeignKey t fk
      else [])

/-- Embedded from the source: `drop_tables` (lines 110-127): the
`DropTable` is pushed before the `DropForeignKey`s of the dropped table;
the final sort re-orders them. -/
def dropTablesSteps (fl : Flavour) (schemas : Pair SqlSchema) : List SqlMigrationStep :=
  (droppedTables fl schemas).flatMap fun t =>
    SqlMigrationStep.dropTable t ::
      (if fl.shouldDropForeignKeysFromDroppedTables then
        (List.range (schemas.previous.tables.getD t default).foreignKeys.length).map fun fk =>
          .dropForeignKey t fk
      else [])

/-- The deduplicated contents of the `HashSet` built by `drop_indexes`
(lines 332-360), in insertion order. -/
def dropIndexesSet (fl : Flavour) (schemas : Pair SqlSchema) (tablesToRedefine : List String) :
    List (Nat × Nat) :=
  let fromPairs := (tablePairs fl schemas).flatMap fun tp =>
    let tables := Pair.tables schemas tp
    ((droppedIndexes tables).filter fun i =>
        !(fl.shouldSkipFkIndexes
          && indexCoversFk tables.previous (tables.previous.indexes.getD i default))).map
      fun i => (tp.previous, i)
  let fromDroppedTables :=
    if !tablesToRedefine.isEmpty && fl.shouldDropIndexesFromDroppedTables then
      (droppedTables fl schemas).flatMap fun t =>
        (List.range (schemas.previous.tables.getD t default).indexes.length).map fun i => (t, i)
    else []
  (fromPairs ++ fromDroppedTables).dedup

/-- Embedded from the source: `drop_indexes`; `π` supplies the iteration
order of the `HashSet` (an arbitrary permutation at runtime). -/
def dropIndexesSteps (fl : Flavour) (schemas : Pair SqlSchema) (tablesToRedefine : List String)
    (π : List (Nat × Nat) → List (Nat × Nat)) : List SqlMigrationStep :=
  (π (dropIndexesSet fl schemas tablesToRedefine)).map fun ti => .dropIndex ti.1 ti.2

/-- Embedded from the source: `push_create_indexes` (lines 285-330). -/
def createIndexesSteps (fl : Flavour) (schemas : Pair SqlSchema) (tablesToRedefine : List String) :
    List SqlMigrationStep :=
  (if fl.shouldCreateIndexesFromCreatedTables then
    (createdTables fl schemas).flatMap fun t =>
      ((List.range (schemas.next.tables.getD t default).indexes.length).filter fun i =>
          !fl.shouldSkipIndexForNewTable ((schemas.next.tables.getD t default).indexes.getD i default)).map
        fun i => SqlMigrationStep.createIndex none t i
  else [])
  ++ ((tablePairs fl schemas).filter fun tp =>
        !tablesToRedefine.contains (Pair.tables schemas tp).next.name).flatMap fun tp =>
      let tables := Pair.tables schemas tp
      (createdIndexes tables).map (fun i => SqlMigrationStep.createIndex (some tp.previous) tp.next i)
      ++ (if fl.indexesShouldBeRecreatedAfterColumnDrop then
          let recreatedNextIds := (columnPairs fl tables).filterMap fun ids =>
            if (allChanges fl tables ids).2 == some .notCastable then some ids.next else none
          ((indexPairs tables).filter fun ip =>
              (tables.next.indexes.getD ip.next default).columns.any
                fun c => recreatedNextIds.contains c).map
            fun ip => SqlMigrationStep.createIndex (some tp.previous) tp.next ip.next
        else [])

/-- Embedded from the source: `push_altered_tables` (lines 129-176). -/
def alteredTablesSteps (fl : Flavour) (schemas : Pair SqlSchema) (tablesToRedefine : List String) :
    List SqlMigrationStep :=
  ((tablePairs fl schemas).filter fun tp =>
      !tablesToRedefine.contains (Pair.tables schemas tp).next.name).flatMap fun tp =>
    let tables := Pair.tables schemas tp
    (createdForeignKeys fl tables).map (fun fk => SqlMigrationStep.addForeignKey tp.next fk)
    ++ (droppedForeignKeys fl tables).map (fun fk => SqlMigrationStep.dropForeignKey tp.previous fk)
    ++ (let changes := alterTableChanges fl tables
        if changes.isEmpty then []
        else
          ((columnPairs fl tables).flatMap fun ids =>
            (fl.indexChangesForColumnChanges tp ids (allChanges fl tables ids).1).map
              IndexChangeRequest.toStep)
          ++ [SqlMigrationStep.alterTable tp changes])

/-- Embedded from the source: `redefine_tables` (lines 362-391). -/
def redefineTablesList (fl : Flavour) (schemas : Pair SqlSchema) (tablesToRedefine : List String) :
    List RedefineTable :=
  ((tablePairs fl schemas).filter fun tp =>
      tablesToRedefine.contains (Pair.tables schemas tp).next.name).map fun tp =>
    let tables := Pair.tables schemas tp
    { tableIds := tp
      droppedPrimaryKey := (drop_primary_key fl tables).isSome
      addedColumns := addedColumns fl tables
      droppedColumns := droppedColumns fl tables
      columnPairs := (columnPairs fl tables).map fun ids =>
        let (changes, type_change) := allChanges fl tables ids
        (ids, changes, type_change) }

/-- Embedded from the source: `alter_indexes` (lines 402-418): pairs of
(table-id pair, index-id pair) for indexes the flavour declares renamed. -/
def alterIndexesList (fl : Flavour) (schemas : Pair SqlSchema) (tablesToRedefine : List String) :
    List (Pair Nat × Pair Nat) :=
  ((tablePairs fl schemas).filter fun tp =>
      !tablesToRedefine.contains (Pair.tables schemas tp).next.name).flatMap fun tp =>
    let tables := Pair.tables schemas tp
    ((indexPairs tables).filter fun ip =>
        indexShouldBeRenamed ⟨tables.previous.indexes.getD ip.previous default,
                              tables.next.indexes.getD ip.next default⟩).map
      fun ip => (tp, ip)

/-- Modelled from the spec: the flavour's `alter_enums` hook — the enum
pairs whose value sets changed (`enums.rs` and the flavour implementations
are not under the verified sources). -/
def alterEnumsOf (schemas : Pair SqlSchema) : List AlterEnum :=
  (enumPairs schemas).filterMap fun p =>
    if (schemas.previous.enums.getD p.previous default).values
        != (schemas.next.enums.getD p.next default).values
    then some { index := p, previousUsagesAsDefault := [] }
    else none

def Column.column_type_is_enum (c : Column) (name : String) : Bool :=
  c.tpe == .enum name

/-- Embedded from the source:
`push_previous_usages_as_defaults_in_altered_enums` (lines 461-500). -/
def pushPreviousUsages (fl : Flavour) (schemas : Pair SqlSchema) (aes : List AlterEnum) :
    List AlterEnum :=
  aes.map fun ae =>
    let prevName := (schemas.previous.enums.getD ae.index.previous default).name
    let nextName := (schemas.next.enums.getD ae.index.next default).name
    let usages :=
      ((droppedTables fl schemas).flatMap fun t =>
        let table := schemas.previous.tables.getD t default
        ((List.range table.columns.length).filter fun c =>
            (table.columnAt c).column_type_is_enum prevName
              && (table.columnAt c).default.isSome).map
          fun c => (((t, c) : Nat × Nat), (none : Option (Nat × Nat))))
      ++ ((tablePairs fl schemas).flatMap fun tp =>
        let tables := Pair.tables schemas tp
        ((droppedColumns fl tables).filter fun c =>
            (tables.previous.columnAt c).column_type_is_enum prevName
              && (tables.previous.columnAt c).default.isSome).map
          (fun c => (((tp.previous, c) : Nat × Nat), (none : Option (Nat × Nat))))
        ++ ((columnPairs fl tables).filter fun ids =>
              (tables.previous.columnAt ids.previous).column_type_is_enum prevName
                && (tables.previous.columnAt ids.previous).default.isSome).map
          fun ids =>
            let nextCol := tables.next.columnAt ids.next
            let nextUsage :=
              if nextCol.column_type_is_enum nextName && nextCol.default.isSome
              then some ((tp.next, ids.next) : Nat × Nat) else none
            (((tp.previous, ids.previous) : Nat × Nat), nextUsage))
    { ae with previousUsagesAsDefault := usages }

/-! ## Step ordering and `calculate_steps` -/

/-- Modelled from the spec: the total order over step kinds used by the
final sort (`sql_migration.rs` is not under the verified sources):
Create-steps before Alter-steps before Drop-steps, with `CreateTable`
before `AddForeignKey` and `DropForeignKey` before `DropTable`. -/
def stepKind : SqlMigrationStep → Nat
  | .createEnum _ => 0
  | .createTable _ => 1
  | .createIndex _ _ _ => 2
  | .addForeignKey _ _ => 3
  | .alterEnum _ => 4
  | .alterTable _ _ => 5
  | .alterIndex _ _ => 6
  | .redefineIndex _ _ => 7
  | .redefineTables _ => 8
  | .dropForeignKey _ _ => 9
  | .dropIndex _ _ => 10
  | .dropTable _ => 11
  | .dropEnum _ => 12

/-- The stable sort by step kind performed by `steps.sort()` (line 79):
a counting sort over the 13 kinds, which is exactly a stable sort by
discriminant. -/
def sortSteps (l : List SqlMigrationStep) : List SqlMigrationStep :=
  (List.range 13).flatMap fun k => l.filter fun s => stepKind s == k

/-- The step buffer of `calculate_steps` before the final sort, in
emission order (lines 27-77). -/
def stepBuffer (schemas : Pair SqlSchema) (fl : Flavour)
    (π : List (Nat × Nat) → List (Nat × Nat)) : List SqlMigrationStep :=
  let r := tablesToRedefine fl schemas
  let alterIdxs0 := alterIndexesList fl schemas r
  let alterIdxs := if fl.canAlterIndex then alterIdxs0 else []
  let redefineIdxs := if fl.canAlterIndex then [] else alterIdxs0
  let redefs := redefineTablesList fl schemas r
  let aes := pushPreviousUsages fl schemas (alterEnumsOf schemas)
  pushCreateTables fl schemas
    ++ (dropTablesSteps fl schemas
    ++ (dropIndexesSteps fl schemas r π
    ++ (createIndexesSteps fl schemas r
    ++ (alteredTablesSteps fl schemas r
    ++ ((createdEnums schemas).map .createEnum
    ++ ((droppedEnums schemas).map .dropEnum
    ++ (aes.map .alterEnum
    ++ ((if redefs.isEmpty then [] else [SqlMigrationStep.redefineTables redefs])
    ++ (alterIdxs.map (fun p => SqlMigrationStep.alterIndex p.1 p.2)
    ++ redefineIdxs.map (fun p => SqlMigrationStep.redefineIndex p.1 p.2))))))))))

/-- Embedded from the source: `calculate_steps` (lines 27-82). `π` models
the iteration order of the `drop_indexes` `HashSet`. -/
def calculate_steps (schemas : Pair SqlSchema) (fl : Flavour)
    (π : List (Nat × Nat) → List (Nat × Nat)) : List SqlMigrationStep :=
  sortSteps (stepBuffer schemas fl π)

/-! ## Auxiliary definitions for the statements of the properties -/

/-- The canonical position of a change inside an `AlterTable` step:
drop primary key, drop column, add column, alter / drop-and-recreate
column, add primary key. -/
def changeRank : TableChange → Nat
  | .dropPrimaryKey => 0
  | .dropColumn _ => 1
  | .addColumn _ => 2
  | .alterColumn _ _ _ => 3
  | .dropAndRecreateColumn _ _ => 3
  | .addPrimaryKey => 4

def SqlMigrationStep.isDropForeignKey : SqlMigrationStep → Bool
  | .dropForeignKey _ _ => true
  | _ => false

def SqlMigrationStep.isDropTable : SqlMigrationStep → Bool
  | .dropTable _ => true
  | _ => false

def SqlMigrationStep.isCreateTable : SqlMigrationStep → Bool
  | .createTable _ => true
  | _ => false

def SqlMigrationStep.isAddForeignKey : SqlMigrationStep → Bool
  | .addForeignKey _ _ => true
  | _ => false

def TableChange.isDropColumn : TableChange → Bool
  | .dropColumn _ => true
  | _ => false

def TableChange.isAddColumn : TableChange → Bool
  | .addColumn _ => true
  | _ => false

/-- A valid schema for a flavour: table names, the column names of each
table, and enum names are pairwise distinct under the flavour's identity
rules (§3: "TableIds and ColumnIds are valid positions"; §8 quantifies
the invariants over valid schema pairs). -/
def wellFormed (fl : Flavour) (s : SqlSchema) : Prop :=
  s.tables.Pairwise (fun a b => fl.tableNameNormalize a.name ≠ fl.tableNameNormalize b.name)
    ∧ (∀ t ∈ s.tables,
        t.columns.Pairwise fun a b => fl.columnNameNormalize a.name ≠ fl.columnNameNormalize b.name)
    ∧ s.enums.Pairwise fun a b => a.name ≠ b.name

instance (fl : Flavour) (s : SqlSchema) : Decidable (wellFormed fl s) := by
  unfold wellFormed; infer_instance

/-- The next-side usage recorded for a previous column `(t, c)` in the
`previous_usages_as_default` of an `AlterEnum`: the corresponding next
(table, column) ids when the paired next column still uses the enum with
a default, `none` otherwise. -/
def expectedNextUsage (fl : Flavour) (schemas : Pair SqlSchema) (nextEnumName : String)
    (t c : Nat) : Option (Nat × Nat) :=
  match findTableMatch fl schemas.next.tables (schemas.previous.tables.getD t default).name with
  | none => none
  | some tn =>
    let tables := Pair.tables schemas ⟨t, tn⟩
    match findColumnMatch fl tables.next.columns (tables.previous.columnAt c).name with
    | none => none
    | some cn =>
      let nextCol := tables.next.columnAt cn
      if nextCol.column_type_is_enum nextEnumName && nextCol.default.isSome
      then some (tn, cn) else none

/-! ## Concrete fixtures used by the witnesses and counterexamples -/

/-- A simple dialect: exact name matching, all push/drop hooks enabled, no
table redefinition, every type change classified `NotCastable`, no
index-side hook steps. -/
def exFlavour : Flavour :=
  { tableNameNormalize := id
    columnNameNormalize := id
    shouldPushForeignKeysFromCreatedTables := true
    shouldDropForeignKeysFromDroppedTables := true
    shouldCreateIndexesFromCreatedTables := true
    shouldSkipIndexForNewTable := fun _ => false
    shouldDropIndexesFromDroppedTables := false
    shouldSkipFkIndexes := false
    indexesShouldBeRecreatedAfterColumnDrop := false
    shouldRecreateThePrimaryKeyOnColumnRecreate := true
    canAlterIndex := true
    canCopeWithForeignKeyColumnBecomingNonnullable := false
    referentialActionsEnabled := false
    redefinesTables := false
    classifyCast := fun _ _ _ _ => .notCastable
    indexChangesForColumnChanges := fun _ _ _ => [] }

def exIntColumn (n : String) : Column :=
  { name := n, tpe := .int, arity := .required, default := none, autoIncrement := false }

end Prisma


namespace Quaint

/-! ## The SQLite connection-string parser
(`SqliteParams::try_from` in `connector/sqlite.rs`, lines 35-102).

The filesystem query `Path::is_dir` is modelled as an oracle parameter
`isDir`, and `num_cpus::get_physical()` as a parameter `numCpus`.  The
function can panic (indexing `splitted[1]` on a query item without `=`,
and `u32::try_from(...).unwrap()`), so the result is a three-way outcome.
String operations are embedded as structural recursion over the
character list of the connection string, mirroring `str::split`,
`str::starts_with` and `str::trim_start_matches`. -/

/-- The error variants reachable from `SqliteParams::try_from`. -/
inductive Error where
  | databaseUrlIsInvalid (url : List Char)
  | invalidConnectionArguments
deriving DecidableEq, Repr

structure SqliteParams where
  connectionLimit : Nat
  filePath : List Char
  dbName : List Char
  /-- `socket_timeout` in seconds (`Duration::from_secs`). -/
  socketTimeoutSecs : Nat
deriving DecidableEq, Repr

inductive ParseOutcome where
  | ok (params : SqliteParams)
  | err (e : Error)
  | panic
deriving DecidableEq, Repr

/-- The character list of a string literal. -/
def chars (s : String) : List Char := s.data

/-- Rust `str::starts_with`. -/
def listStartsWith : List Char → List Char → Bool
  | _, [] => true
  | [], _ :: _ => false
  | x :: xs, y :: ys => x == y && listStartsWith xs ys

/-- Rust `str::split(c)`: splitting on a character, never empty. -/
def listSplitOn (c : Char) : List Char → List (List Char)
  | [] => [[]]
  | x :: xs =>
    match listSplitOn c xs with
    | [] => [[]]
    | r :: rs => if x == c then [] :: r :: rs else (x :: r) :: rs

/-- Rust `str::trim_start_matches`: repeatedly removes the prefix. The
fuel is the string length; each removal consumes at least one character. -/
def listTrimStartMatchesAux : Nat → List Char → List Char → List Char
  | 0, s, _ => s
  | n + 1, s, pre =>
    if !pre.isEmpty && listStartsWith s pre then
      listTrimStartMatchesAux n (s.drop pre.length) pre
    else s

def listTrimStartMatches (s pre : List Char) : List Char :=
  listTrimStartMatchesAux s.length s pre

/-- Rust `str::parse::<usize>`: optional leading `+`, then decimal
digits; fails on the empty string, on non-digits and on overflow past
`usize`. -/
def parseRustNat (s : List Char) : Option Nat :=
  let digits := if listStartsWith s ['+'] then s.drop 1 else s
  if digits.isEmpty then none
  else if digits.all Char.isDigit then
    let v := digits.foldl (fun acc c => acc * 10 + (c.toNat - 48)) 0
    if v < 18446744073709551616 then some v else none
  else none

/-- `Option`-valued traversal of a list, used for the panicking
`map ... collect` over query items. -/
def optionTraverse {α β : Type} (f : α → Option β) : List α → Option (List β)
  | [] => some []
  | x :: xs =>
    match f x, optionTraverse f xs with
    | some y, some ys => some (y :: ys)
    | _, _ => none

/-- Splitting one `k=v` query item (`kv.split('=')` followed by
`splitted[0]` / `splitted[1]`): `none` models the index-out-of-bounds
panic when the item contains no `=`. -/
def splitQueryItem (kv : List Char) : Option (List Char × List Char) :=
  let splitted := listSplitOn '=' kv
  if splitted.length ≥ 2 then some (splitted.getD 0 [], splitted.getD 1 []) else none

/-- One step of the `for (k, v) in unsupported` loop (lines 70-91). -/
def applyQueryParam (st : Nat × Option (List Char) × Nat) (kv : List Char × List Char) :
    Except Error (Nat × Option (List Char) × Nat) :=
  if kv.1 == chars "connection_limit" then
    match parseRustNat kv.2 with
    | some v => .ok (v, st.2.1, st.2.2)
    | none => .error .invalidConnectionArguments
  else if kv.1 == chars "db_name" then
    .ok (st.1, some kv.2, st.2.2)
  else if kv.1 == chars "socket_timeout" then
    match parseRustNat kv.2 with
    | some v => .ok (st.1, st.2.1, v)
    | none => .error .invalidConnectionArguments
  else
    .ok st

/-- The connection string after scheme stripping (lines 39-43). -/
def stripScheme (path : List Char) : List Char :=
  if listStartsWith path (chars "file:") then listTrimStartMatches path (chars "file:")
  else listTrimStartMatches path (chars "sqlite:")

/-- The file-path component: the segment before the first `?` (line 46). -/
def extractedPath (path : List Char) : List Char :=
  (listSplitOn '?' (stripScheme path)).getD 0 []

/-- Embedded from the source: `SqliteParams::try_from` (lines 35-102). -/
def sqliteParamsTryFrom (isDir : List Char → Bool) (numCpus : Nat) (path : List Char) :
    ParseOutcome :=
  let path_parts := listSplitOn '?' (stripScheme path)
  let path_str := extractedPath path
  if isDir path_str then .err (.databaseUrlIsInvalid path_str)
  else
    let init : Nat × Option (List Char) × Nat := (numCpus * 2 + 1, none, 5)
    let afterQuery : ParseOutcome ⊕ (Nat × Option (List Char) × Nat) :=
      if path_parts.length > 1 then
        let items := listSplitOn '&' (path_parts.getLast?.getD [])
        match optionTraverse splitQueryItem items with
        | none => .inl .panic
        | some kvs =>
          match kvs.foldlM applyQueryParam init with
          | .error e => .inl (.err e)
          | .ok st => .inr st
      else .inr init
    match afterQuery with
    | .inl out => out
    | .inr (connection_limit, db_name, socket_timeout) =>
      if connection_limit > 4294967295 then .panic
      else .ok { connectionLimit := connection_limit
                 filePath := path_str
                 dbName := db_name.getD (chars "quaint")
                 socketTimeoutSecs := socket_timeout }

theorem optionTraverse_eq_none_of_mem {α β : Type} (f : α → Option β) :
    ∀ (l : List α), (∃ a ∈ l, f a = none) → optionTraverse f l = none := by
  intro l
  induction l with
  | nil => rintro ⟨a, ha, _⟩; cases ha
  | cons x xs ih =>
    rintro ⟨a, ha, hfa⟩
    rcases List.mem_cons.mp ha with h | h
    · subst h
      simp [optionTraverse, hfa]
    · rw [optionTraverse, ih ⟨a, h, hfa⟩]
      rcases f x with _ | y <;> rfl

end Quaint

namespace Quaint

/-- C9: `SqliteParams::try_from` strips a leading `file:` or `sqlite:`
scheme, takes the segment before `?` as the file path, fails with
`DatabaseUrlIsInvalid` when that path is an existing directory, defaults
`db_name` to "quaint" and `socket_timeout` to 5 seconds, maps integer
parse failures of `connection_limit` / `socket_timeout` to
`InvalidConnectionArguments`, and discards unrecognized query keys, so
that `file:db/test.db?connection_limit=4&unknown=x` yields
file_path = "db/test.db", connection_limit = 4, db_name = "quaint". -/
theorem claim_C9_sqlite_params (isDir : List Char → Bool) (cpus : Nat) :
    (∀ path, isDir (extractedPath path) = true →
      sqliteParamsTryFrom isDir cpus path = .err (.databaseUrlIsInvalid (extractedPath path)))
    ∧ sqliteParamsTryFrom (fun _ => false) cpus
        (chars "file:db/test.db?connection_limit=4&unknown=x")
        = .ok { connectionLimit := 4, filePath := chars "db/test.db", dbName := chars "quaint",
                socketTimeoutSecs := 5 }
    ∧ sqliteParamsTryFrom (fun _ => false) cpus (chars "file:dev.db?connection_limit=abc")
        = .err .invalidConnectionArguments
    ∧ sqliteParamsTryFrom (fun _ => false) cpus (chars "file:dev.db?socket_timeout=5x")
        = .err .invalidConnectionArguments
    ∧ sqliteParamsTryFrom (fun _ => false) 4 (chars "sqlite:dev.db")
        = .ok { connectionLimit := 9, filePath := chars "dev.db", dbName := chars "quaint",
                socketTimeoutSecs := 5 } := by
  refine ⟨?_, rfl, rfl, rfl, by decide⟩
  intro path h
  simp [sqliteParamsTryFrom, h]

/-- Witness for C9 at the spec's own example: `sqlite:/etc` with `/etc` an
existing directory. -/
theorem claim_C9_sqlite_params_witness :
    sqliteParamsTryFrom (fun p => p == chars "/etc") 4 (chars "sqlite:/etc")
      = .err (.databaseUrlIsInvalid (extractedPath (chars "sqlite:/etc"))) :=
  (claim_C9_sqlite_params (fun p => p == chars "/etc") 4).1 (chars "sqlite:/etc") (by decide)

/-- C10: `SqliteParams::try_from` panics (indexes past the end of the
`split('=')` result) on any connection string whose query segment has an
item without `=`, instead of returning an error. -/
theorem claim_C10_query_item_without_eq_panics (isDir : List Char → Bool) (cpus : Nat)
    (path : List Char)
    (hdir : isDir (extractedPath path) = false)
    (hq : 1 < (listSplitOn '?' (stripScheme path)).length)
    (hitem : ∃ item ∈ listSplitOn '&' ((listSplitOn '?' (stripScheme path)).getLast?.getD []),
        (listSplitOn '=' item).length < 2) :
    sqliteParamsTryFrom isDir cpus path = .panic := by
  have hnone : optionTraverse splitQueryItem
      (listSplitOn '&' ((listSplitOn '?' (stripScheme path)).getLast?.getD [])) = none := by
    apply optionTraverse_eq_none_of_mem
    obtain ⟨item, hmem, hlen⟩ := hitem
    refine ⟨item, hmem, ?_⟩
    unfold splitQueryItem
    rw [if_neg (by omega)]
  simp only [sqliteParamsTryFrom, hdir, Bool.false_eq_true, if_false, if_pos hq, hnone]

/-- Witness for C10: `file:dev.db?foo` panics. -/
theorem claim_C10_query_item_without_eq_panics_witness :
    sqliteParamsTryFrom (fun _ => false) 4 (chars "file:dev.db?foo") = .panic :=
  claim_C10_query_item_without_eq_panics (fun _ => false) 4 (chars "file:dev.db?foo") rfl
    (by decide) ⟨chars "foo", by decide, by decide⟩

end Quaint

namespace Prisma

/-! ## Properties of the final sort -/

theorem stepKind_lt_13 (s : SqlMigrationStep) : stepKind s < 13 := by
  cases s <;> simp [stepKind]

theorem mem_sortSteps {s : SqlMigrationStep} {l : List SqlMigrationStep} :
    s ∈ sortSteps l ↔ s ∈ l := by
  unfold sortSteps
  constructor
  · intro h
    obtain ⟨k, _, hk⟩ := List.mem_flatMap.mp h
    exact (List.mem_filter.mp hk).1
  · intro h
    refine List.mem_flatMap.mpr ⟨stepKind s, List.mem_range.mpr (stepKind_lt_13 s), ?_⟩
    exact List.mem_filter.mpr ⟨h, by simp⟩

theorem kind_lt_of_mem_blocks {a : SqlMigrationStep} {l : List SqlMigrationStep} {n : Nat}
    (h : a ∈ (List.range n).flatMap fun k => l.filter fun s => stepKind s == k) :
    stepKind a < n := by
  obtain ⟨k, hk, ha⟩ := List.mem_flatMap.mp h
  have h1 : stepKind a = k := by simpa using (List.mem_filter.mp ha).2
  have h2 : k < n := List.mem_range.mp hk
  omega

theorem blocks_kind_sorted (l : List SqlMigrationStep) (n : Nat) :
    ((List.range n).flatMap fun k => l.filter fun s => stepKind s == k).Pairwise
      (fun a b => stepKind a ≤ stepKind b) := by
  induction n with
  | zero => simp
  | succ m ih =>
    rw [List.range_succ, List.flatMap_append]
    refine List.pairwise_append.mpr ⟨ih, ?_, ?_⟩
    · simp only [List.flatMap_cons, List.flatMap_nil, List.append_nil]
      refine List.pairwise_of_forall_mem_list ?_
      intro a ha b hb
      have ha1 : stepKind a = m := by simpa using (List.mem_filter.mp ha).2
      have hb1 : stepKind b = m := by simpa using (List.mem_filter.mp hb).2
      omega
    · intro a ha b hb
      have h1 := kind_lt_of_mem_blocks ha
      simp only [List.flatMap_cons, List.flatMap_nil, List.append_nil] at hb
      have h2 : stepKind b = m := by simpa using (List.mem_filter.mp hb).2
      omega

theorem sortSteps_kind_sorted (l : List SqlMigrationStep) :
    (sortSteps l).Pairwise (fun a b => stepKind a ≤ stepKind b) :=
  blocks_kind_sorted l 13

/-- The kinds of the sorted output are monotone in position. -/
theorem sortSteps_kind_mono {l : List SqlMigrationStep} {i j : Nat}
    {si sj : SqlMigrationStep}
    (hi : (sortSteps l)[i]? = some si) (hj : (sortSteps l)[j]? = some sj)
    (hij : i < j) : stepKind si ≤ stepKind sj := by
  obtain ⟨hi1, hi2⟩ := List.getElem?_eq_some_iff.mp hi
  obtain ⟨hj1, hj2⟩ := List.getElem?_eq_some_iff.mp hj
  have := List.pairwise_iff_getElem.mp (sortSteps_kind_sorted l) i j hi1 hj1 hij
  rwa [hi2, hj2] at this

theorem filter_blocks (l : List SqlMigrationStep) (k : Nat) :
    ∀ n, ((List.range n).flatMap fun j => l.filter fun s => stepKind s == j).filter
        (fun s => stepKind s == k)
      = if k < n then l.filter (fun s => stepKind s == k) else [] := by
  intro n
  induction n with
  | zero => simp
  | succ m ih =>
    rw [List.range_succ, List.flatMap_append, List.filter_append, ih]
    simp only [List.flatMap_cons, List.flatMap_nil, List.append_nil, List.filter_filter]
    by_cases hkm : k = m
    · subst hkm
      rw [if_neg (by omega), if_pos (by omega)]
      simp only [List.nil_append]
      apply List.filter_congr
      intro a _
      simp [Bool.and_self]
    · by_cases hlt : k < m
      · rw [if_pos hlt, if_pos (by omega)]
        have : (l.filter fun s => (stepKind s == k) && (stepKind s == m)) = [] := by
          refine List.filter_eq_nil_iff.mpr ?_
          intro a _
          simp only [Bool.and_eq_true, beq_iff_eq]
          omega
        rw [this, List.append_nil]
      · rw [if_neg hlt, if_neg (by omega)]
        simp only [List.nil_append]
        refine List.filter_eq_nil_iff.mpr ?_
        intro a _
        simp only [Bool.and_eq_true, beq_iff_eq]
        omega

/-- Filtering the sorted steps at one kind recovers the same-kind steps of
the buffer in emission order. -/
theorem filter_sortSteps (l : List SqlMigrationStep) (k : Nat) :
    (sortSteps l).filter (fun s => stepKind s == k) = l.filter (fun s => stepKind s == k) := by
  unfold sortSteps
  rw [filter_blocks l k 13]
  by_cases hk : k < 13
  · rw [if_pos hk]
  · rw [if_neg hk]
    symm
    refine List.filter_eq_nil_iff.mpr ?_
    intro a _
    have := stepKind_lt_13 a
    simp only [beq_iff_eq]
    omega

theorem sortSteps_perm (l : List SqlMigrationStep) : (sortSteps l).Perm l := by
  refine List.perm_iff_count.mpr ?_
  intro a
  have h13 := stepKind_lt_13 a
  unfold sortSteps
  have key : ∀ n, List.count a ((List.range n).flatMap fun k => l.filter fun s => stepKind s == k)
      = if stepKind a < n then List.count a l else 0 := by
    intro n
    induction n with
    | zero => simp
    | succ m ih =>
      rw [List.range_succ, List.flatMap_append, List.count_append, ih]
      simp only [List.flatMap_cons, List.flatMap_nil, List.append_nil]
      by_cases ham : stepKind a = m
      · rw [if_neg (by omega), if_pos (by omega)]
        simp only [Nat.zero_add]
        rw [List.count_filter (by simpa using ham)]
      · have : List.count a (l.filter fun s => stepKind s == m) = 0 := by
          refine List.count_eq_zero.mpr ?_
          intro hmem
          have := (List.mem_filter.mp hmem).2
          simp only [beq_iff_eq] at this
          exact ham this
        rw [this]
        by_cases hlt : stepKind a < m
        · rw [if_pos hlt, if_pos (by omega)]
          omega
        · rw [if_neg hlt, if_neg (by omega)]
  rw [key 13, if_pos h13]

end Prisma

namespace Prisma

/-- C4: the final reordering of the step buffer in `calculate_steps` is a
stable sort by step kind only: filtering the output at any single kind
yields exactly the same-kind steps of the buffer in their emission order,
the output is sorted by kind, and it is a permutation of the buffer. -/
theorem claim_C4_stable_sort_by_kind (schemas : Pair SqlSchema) (fl : Flavour)
    (π : List (Nat × Nat) → List (Nat × Nat)) (k : Nat) :
    (calculate_steps schemas fl π).filter (fun s => stepKind s == k)
        = (stepBuffer schemas fl π).filter (fun s => stepKind s == k)
    ∧ (calculate_steps schemas fl π).Pairwise (fun a b => stepKind a ≤ stepKind b)
    ∧ (calculate_steps schemas fl π).Perm (stepBuffer schemas fl π) :=
  ⟨filter_sortSteps _ k, sortSteps_kind_sorted _, sortSteps_perm _⟩

/-! ## Kinds of the steps emitted by each pipeline stage -/

theorem kind_of_mem_pushCreateTables {x : SqlMigrationStep} {fl : Flavour}
    {schemas : Pair SqlSchema} (h : x ∈ pushCreateTables fl schemas) :
    stepKind x = 1 ∨ stepKind x = 3 := by
  unfold pushCreateTables at h
  obtain ⟨t, _, hx⟩ := List.mem_flatMap.mp h
  rcases List.mem_cons.mp hx with h1 | h1
  · subst h1; left; rfl
  · right
    rcases hb : fl.shouldPushForeignKeysFromCreatedTables with _ | _
    · rw [hb] at h1; simp at h1
    · rw [hb] at h1
      simp only [if_true] at h1
      obtain ⟨fk, _, hfk⟩ := List.mem_map.mp h1
      subst hfk; rfl

theorem kind_of_mem_dropTablesSteps {x : SqlMigrationStep} {fl : Flavour}
    {schemas : Pair SqlSchema} (h : x ∈ dropTablesSteps fl schemas) :
    stepKind x = 11 ∨ stepKind x = 9 := by
  unfold dropTablesSteps at h
  obtain ⟨t, _, hx⟩ := List.mem_flatMap.mp h
  rcases List.mem_cons.mp hx with h1 | h1
  · subst h1; left; rfl
  · right
    rcases hb : fl.shouldDropForeignKeysFromDroppedTables with _ | _
    · rw [hb] at h1; simp at h1
    · rw [hb] at h1
      simp only [if_true] at h1
      obtain ⟨fk, _, hfk⟩ := List.mem_map.mp h1
      subst hfk; rfl

theorem kind_of_mem_dropIndexesSteps {x : SqlMigrationStep} {fl : Flavour}
    {schemas : Pair SqlSchema} {r : List String} {π : List (Nat × Nat) → List (Nat × Nat)}
    (h : x ∈ dropIndexesSteps fl schemas r π) : stepKind x = 10 := by
  unfold dropIndexesSteps at h
  obtain ⟨ti, _, hx⟩ := List.mem_map.mp h
  subst hx; rfl

theorem kind_of_mem_createIndexesSteps {x : SqlMigrationStep} {fl : Flavour}
    {schemas : Pair SqlSchema} {r : List String}
    (h : x ∈ createIndexesSteps fl schemas r) : stepKind x = 2 := by
  unfold createIndexesSteps at h
  rcases List.mem_append.mp h with h1 | h1
  · rcases hb : fl.shouldCreateIndexesFromCreatedTables with _ | _
    · rw [hb] at h1; simp at h1
    · rw [hb] at h1
      simp only [if_true] at h1
      obtain ⟨t, _, hx⟩ := List.mem_flatMap.mp h1
      obtain ⟨i, _, hi⟩ := List.mem_map.mp hx
      subst hi; rfl
  · obtain ⟨tp, _, hx⟩ := List.mem_flatMap.mp h1
    rcases List.mem_append.mp hx with h2 | h2
    · obtain ⟨i, _, hi⟩ := List.mem_map.mp h2
      subst hi; rfl
    · rcases hb : fl.indexesShouldBeRecreatedAfterColumnDrop with _ | _
      · rw [hb] at h2; simp at h2
      · rw [hb] at h2
        simp only [if_true] at h2
        obtain ⟨ip, _, hi⟩ := List.mem_map.mp h2
        subst hi; rfl

theorem alterTable_mem_alteredTablesSteps {fl : Flavour} {schemas : Pair SqlSchema}
    {r : List String} {tids : Pair Nat} {changes : List TableChange}
    (h : SqlMigrationStep.alterTable tids changes ∈ alteredTablesSteps fl schemas r) :
    ∃ tp, tp ∈ tablePairs fl schemas ∧ tids = tp
      ∧ changes = alterTableChanges fl (Pair.tables schemas tp) := by
  unfold alteredTablesSteps at h
  obtain ⟨tp, htp, hx⟩ := List.mem_flatMap.mp h
  refine ⟨tp, (List.mem_filter.mp htp).1, ?_⟩
  simp only at hx
  rcases List.mem_append.mp hx with h1 | h2
  · exfalso
    rcases List.mem_append.mp h1 with h2 | h2 <;>
      · obtain ⟨fk, _, hfk⟩ := List.mem_map.mp h2
        cases hfk
  · rcases hc : (alterTableChanges fl (Pair.tables schemas tp)).isEmpty with _ | _
    · rw [hc] at h2
      simp only [Bool.false_eq_true, if_false] at h2
      rcases List.mem_append.mp h2 with h3 | h3
      · exfalso
        obtain ⟨ids, _, hreq⟩ := List.mem_flatMap.mp h3
        obtain ⟨req, _, hx2⟩ := List.mem_map.mp hreq
        cases req <;> cases hx2
      · rcases List.mem_cons.mp h3 with h4 | h4
        · cases h4; exact ⟨rfl, rfl⟩
        · cases h4
    · rw [hc] at h2
      simp at h2

end Prisma

namespace Prisma

theorem alterTable_mem_stepBuffer {fl : Flavour} {schemas : Pair SqlSchema}
    {π : List (Nat × Nat) → List (Nat × Nat)} {tids : Pair Nat} {changes : List TableChange}
    (h : SqlMigrationStep.alterTable tids changes ∈ stepBuffer schemas fl π) :
    ∃ tp, tp ∈ tablePairs fl schemas ∧ tids = tp
      ∧ changes = alterTableChanges fl (Pair.tables schemas tp) := by
  unfold stepBuffer at h
  simp only at h
  rcases List.mem_append.mp h with h1 | h
  · rcases kind_of_mem_pushCreateTables h1 with h2 | h2 <;> simp [stepKind] at h2
  rcases List.mem_append.mp h with h1 | h
  · rcases kind_of_mem_dropTablesSteps h1 with h2 | h2 <;> simp [stepKind] at h2
  rcases List.mem_append.mp h with h1 | h
  · have := kind_of_mem_dropIndexesSteps h1; simp [stepKind] at this
  rcases List.mem_append.mp h with h1 | h
  · have := kind_of_mem_createIndexesSteps h1; simp [stepKind] at this
  rcases List.mem_append.mp h with h1 | h
  · exact alterTable_mem_alteredTablesSteps h1
  rcases List.mem_append.mp h with h1 | h
  · obtain ⟨e, _, he⟩ := List.mem_map.mp h1; cases he
  rcases List.mem_append.mp h with h1 | h
  · obtain ⟨e, _, he⟩ := List.mem_map.mp h1; cases he
  rcases List.mem_append.mp h with h1 | h
  · obtain ⟨e, _, he⟩ := List.mem_map.mp h1; cases he
  rcases List.mem_append.mp h with h1 | h
  · rcases hr : (redefineTablesList fl schemas (tablesToRedefine fl schemas)).isEmpty with _ | _
    · rw [hr] at h1
      simp only [Bool.false_eq_true, if_false] at h1
      rcases List.mem_cons.mp h1 with h2 | h2
      · cases h2
      · cases h2
    · rw [hr] at h1
      simp at h1
  rcases List.mem_append.mp h with h1 | h1
  · exfalso
    rcases hb : fl.canAlterIndex with _ | _ <;> rw [hb] at h1
    · simp at h1
    · simp only [if_true] at h1
      obtain ⟨p, _, hp⟩ := List.mem_map.mp h1; cases hp
  · exfalso
    rcases hb : fl.canAlterIndex with _ | _ <;> rw [hb] at h1
    · simp only [Bool.false_eq_true, if_false] at h1
      obtain ⟨p, _, hp⟩ := List.mem_map.mp h1; cases hp
    · simp at h1

/-! ## The canonical order of changes inside an `AlterTable` -/

theorem option_none_orElse {α : Type} (f : Unit → Option α) : Option.orElse none f = f () :=
  rfl

theorem option_some_orElse {α : Type} (a : α) (f : Unit → Option α) :
    Option.orElse (some a) f = some a :=
  rfl

theorem drop_primary_key_shape (fl : Flavour) (tables : Pair Table) {x : TableChange}
    (h : drop_primary_key fl tables = some x) : x = .dropPrimaryKey := by
  unfold drop_primary_key at h
  rcases hd : droppedPrimaryKey tables with _ | pk <;> rw [hd] at h <;>
    rcases hb : fl.shouldRecreateThePrimaryKeyOnColumnRecreate with _ | _ <;>
      simp only [hb, Option.map_none, Option.map_some, Bool.false_eq_true, if_false, if_true,
        option_none_orElse, option_some_orElse] at h
  · cases h
  · split at h
    · cases h; rfl
    · cases h
  · cases h; rfl
  · cases h; rfl

theorem add_primary_key_shape (fl : Flavour) (tables : Pair Table) {x : TableChange}
    (h : add_primary_key fl tables = some x) : x = .addPrimaryKey := by
  unfold add_primary_key at h
  rcases hd : (createdPrimaryKey tables).filter (fun pk => !pk.isEmpty) with _ | pk <;>
    rw [hd] at h <;>
    rcases hb : fl.shouldRecreateThePrimaryKeyOnColumnRecreate with _ | _ <;>
      simp only [hb, Option.map_none, Option.map_some, Bool.false_eq_true, if_false, if_true,
        option_none_orElse, option_some_orElse] at h
  · cases h
  · split at h
    · cases h; rfl
    · cases h
  · cases h; rfl
  · cases h; rfl

theorem rank_of_mem_alter_columns {fl : Flavour} {tables : Pair Table} {x : TableChange}
    (h : x ∈ alter_columns fl tables) : changeRank x = 3 := by
  unfold alter_columns at h
  rw [(List.perm_insertionSort _ _).mem_iff] at h
  obtain ⟨ids, _, hf⟩ := List.mem_filterMap.mp h
  unfold alterColumnChangeFor at hf
  simp only at hf
  split at hf
  · cases hf
  · split at hf <;> cases hf <;> rfl

theorem rank_pairwise_append {l₁ l₂ : List TableChange} {m : Nat}
    (h₁ : l₁.Pairwise fun a b => changeRank a ≤ changeRank b)
    (h₂ : l₂.Pairwise fun a b => changeRank a ≤ changeRank b)
    (hb₁ : ∀ x ∈ l₁, changeRank x ≤ m) (hb₂ : ∀ x ∈ l₂, m ≤ changeRank x) :
    (l₁ ++ l₂).Pairwise fun a b => changeRank a ≤ changeRank b :=
  List.pairwise_append.mpr ⟨h₁, h₂, fun a ha b hb => le_trans (hb₁ a ha) (hb₂ b hb)⟩

theorem const_rank_pairwise (l : List TableChange) (r : Nat)
    (hl : ∀ x ∈ l, changeRank x = r) :
    l.Pairwise fun a b => changeRank a ≤ changeRank b := by
  refine List.pairwise_of_forall_mem_list ?_
  intro a ha b hb
  rw [hl a ha, hl b hb]

theorem alterTableChanges_rank_sorted (fl : Flavour) (tables : Pair Table) :
    (alterTableChanges fl tables).Pairwise fun a b => changeRank a ≤ changeRank b := by
  have hdrop : ∀ x ∈ (drop_primary_key fl tables).toList, changeRank x = 0 := by
    intro x hx
    rw [Option.mem_toList, Option.mem_def] at hx
    rw [drop_primary_key_shape fl tables hx]
    rfl
  have hadd : ∀ x ∈ (add_primary_key fl tables).toList, changeRank x = 4 := by
    intro x hx
    rw [Option.mem_toList, Option.mem_def] at hx
    rw [add_primary_key_shape fl tables hx]
    rfl
  have hdc : ∀ x ∈ (droppedColumns fl tables).map TableChange.dropColumn, changeRank x = 1 := by
    intro x hx
    obtain ⟨c, _, hc⟩ := List.mem_map.mp hx
    subst hc; rfl
  have hac : ∀ x ∈ (addedColumns fl tables).map TableChange.addColumn, changeRank x = 2 := by
    intro x hx
    obtain ⟨c, _, hc⟩ := List.mem_map.mp hx
    subst hc; rfl
  have pw1 : ((drop_primary_key fl tables).toList
      ++ (droppedColumns fl tables).map TableChange.dropColumn).Pairwise
        fun a b => changeRank a ≤ changeRank b := by
    refine rank_pairwise_append (m := 1) (const_rank_pairwise _ 0 hdrop)
      (const_rank_pairwise _ 1 hdc) ?_ ?_
    · intro x hx; rw [hdrop x hx]; omega
    · intro x hx; rw [hdc x hx]
  have pw2 : (((drop_primary_key fl tables).toList
      ++ (droppedColumns fl tables).map TableChange.dropColumn)
      ++ (addedColumns fl tables).map TableChange.addColumn).Pairwise
        fun a b => changeRank a ≤ changeRank b := by
    refine rank_pairwise_append (m := 2) pw1 (const_rank_pairwise _ 2 hac) ?_ ?_
    · intro x hx
      rcases List.mem_append.mp hx with h | h
      · rw [hdrop x h]; omega
      · rw [hdc x h]; omega
    · intro x hx; rw [hac x hx]
  have pw3 : ((((drop_primary_key fl tables).toList
      ++ (droppedColumns fl tables).map TableChange.dropColumn)
      ++ (addedColumns fl tables).map TableChange.addColumn)
      ++ alter_columns fl tables).Pairwise
        fun a b => changeRank a ≤ changeRank b := by
    refine rank_pairwise_append (m := 3) pw2
      (const_rank_pairwise _ 3 fun x hx => rank_of_mem_alter_columns hx) ?_ ?_
    · intro x hx
      rcases List.mem_append.mp hx with h | h
      · rcases List.mem_append.mp h with h1 | h1
        · rw [hdrop x h1]; omega
        · rw [hdc x h1]; omega
      · rw [hac x h]; omega
    · intro x hx; rw [rank_of_mem_alter_columns hx]
  unfold alterTableChanges
  refine rank_pairwise_append (m := 4) pw3 (const_rank_pairwise _ 4 hadd) ?_ ?_
  · intro x hx
    rcases List.mem_append.mp hx with h | h
    · rcases List.mem_append.mp h with h1 | h1
      · rcases List.mem_append.mp h1 with h2 | h2
        · rw [hdrop x h2]; omega
        · rw [hdc x h2]; omega
      · rw [hac x h1]; omega
    · rw [rank_of_mem_alter_columns h]; omega
  · intro x hx; rw [hadd x hx]

end Prisma

namespace Prisma

theorem kind_eq_of_isDropForeignKey {s : SqlMigrationStep} (h : s.isDropForeignKey = true) :
    stepKind s = 9 := by
  cases s <;> simp_all [SqlMigrationStep.isDropForeignKey, stepKind]

theorem kind_eq_of_isDropTable {s : SqlMigrationStep} (h : s.isDropTable = true) :
    stepKind s = 11 := by
  cases s <;> simp_all [SqlMigrationStep.isDropTable, stepKind]

theorem kind_eq_of_isCreateTable {s : SqlMigrationStep} (h : s.isCreateTable = true) :
    stepKind s = 1 := by
  cases s <;> simp_all [SqlMigrationStep.isCreateTable, stepKind]

theorem kind_eq_of_isAddForeignKey {s : SqlMigrationStep} (h : s.isAddForeignKey = true) :
    stepKind s = 3 := by
  cases s <;> simp_all [SqlMigrationStep.isAddForeignKey, stepKind]

/-- In the sorted output, a step of strictly smaller kind sits strictly
earlier. -/
theorem position_lt_of_kind_lt {l : List SqlMigrationStep} {i j : Nat}
    {si sj : SqlMigrationStep}
    (hi : (sortSteps l)[i]? = some si) (hj : (sortSteps l)[j]? = some sj)
    (hk : stepKind si < stepKind sj) : i < j := by
  by_contra hij
  rcases Nat.lt_or_ge j i with hji | hji
  · have := sortSteps_kind_mono hj hi hji
    omega
  · have hje : j = i := by omega
    subst hje
    rw [hi] at hj
    cases hj
    omega

/-- In a rank-sorted change list, a change of strictly smaller rank sits
strictly earlier. -/
theorem position_lt_of_rank_lt {l : List TableChange} {i j : Nat} {ci cj : TableChange}
    (hs : l.Pairwise fun a b => changeRank a ≤ changeRank b)
    (hi : l[i]? = some ci) (hj : l[j]? = some cj)
    (hk : changeRank ci < changeRank cj) : i < j := by
  by_contra hij
  obtain ⟨hi1, hi2⟩ := List.getElem?_eq_some_iff.mp hi
  obtain ⟨hj1, hj2⟩ := List.getElem?_eq_some_iff.mp hj
  rcases Nat.lt_or_ge j i with hji | hji
  · have := List.pairwise_iff_getElem.mp hs j i hj1 hi1 hji
    rw [hi2, hj2] at this
    omega
  · have hje : j = i := by omega
    subst hje
    rw [hi] at hj
    cases hj
    omega

/-- C1: in the step sequence returned by `calculate_steps`, every
`DropForeignKey` precedes every `DropTable` (in particular, for every
table T, every `DropForeignKey` referencing T precedes every `DropTable`
of T); every `CreateTable` precedes every `AddForeignKey` (in particular
the `CreateTable` of T precedes every `AddForeignKey` referencing T); and
inside every `AlterTable` step, `DropPrimaryKey` precedes every
`DropColumn` and `AddPrimaryKey` follows every `AddColumn`. -/
theorem claim_C1_step_ordering (schemas : Pair SqlSchema) (fl : Flavour)
    (π : List (Nat × Nat) → List (Nat × Nat)) :
    (∀ (i j : Nat) (si sj : SqlMigrationStep), (calculate_steps schemas fl π)[i]? = some si →
      (calculate_steps schemas fl π)[j]? = some sj →
      si.isDropForeignKey = true → sj.isDropTable = true → i < j)
    ∧ (∀ (i j : Nat) (si sj : SqlMigrationStep), (calculate_steps schemas fl π)[i]? = some si →
      (calculate_steps schemas fl π)[j]? = some sj →
      si.isCreateTable = true → sj.isAddForeignKey = true → i < j)
    ∧ (∀ (tids : Pair Nat) (changes : List TableChange),
        SqlMigrationStep.alterTable tids changes ∈ calculate_steps schemas fl π →
        (∀ (i j : Nat) (ci cj : TableChange), changes[i]? = some ci → changes[j]? = some cj →
          ci = .dropPrimaryKey → cj.isDropColumn = true → i < j)
        ∧ (∀ (i j : Nat) (ci cj : TableChange), changes[i]? = some ci → changes[j]? = some cj →
          ci.isAddColumn = true → cj = .addPrimaryKey → i < j)) := by
  refine ⟨?_, ?_, ?_⟩
  · intro i j si sj hi hj hsi hsj
    unfold calculate_steps at hi hj
    refine position_lt_of_kind_lt hi hj ?_
    rw [kind_eq_of_isDropForeignKey hsi, kind_eq_of_isDropTable hsj]
    omega
  · intro i j si sj hi hj hsi hsj
    unfold calculate_steps at hi hj
    refine position_lt_of_kind_lt hi hj ?_
    rw [kind_eq_of_isCreateTable hsi, kind_eq_of_isAddForeignKey hsj]
    omega
  · intro tids changes hmem
    unfold calculate_steps at hmem
    obtain ⟨tp, _, _, hch⟩ := alterTable_mem_stepBuffer (mem_sortSteps.mp hmem)
    have hsorted : changes.Pairwise fun a b => changeRank a ≤ changeRank b := by
      rw [hch]
      exact alterTableChanges_rank_sorted fl (Pair.tables schemas tp)
    constructor
    · intro i j ci cj hci hcj hdp hdc
      refine position_lt_of_rank_lt hsorted hci hcj ?_
      subst hdp
      cases cj <;> simp_all [TableChange.isDropColumn, changeRank]
    · intro i j ci cj hci hcj hac hap
      refine position_lt_of_rank_lt hsorted hci hcj ?_
      subst hap
      cases ci <;> simp_all [TableChange.isAddColumn, changeRank]

/-- The schema pair exercising all four orderings of C1: table B (with a
foreign key) is dropped, table C (with a foreign key) is created, and
table A is altered with a primary-key move from a dropped to an added
column. -/
def exPrevC1 : SqlSchema :=
  { tables :=
      [{ name := "A", columns := [exIntColumn "id", exIntColumn "x"], indexes := [],
         foreignKeys := [], primaryKey := some [1] },
       { name := "B", columns := [exIntColumn "aid"], indexes := [],
         foreignKeys := [⟨[0], "A", ["id"], "NoAction", "NoAction"⟩], primaryKey := none }]
    enums := [] }

def exNextC1 : SqlSchema :=
  { tables :=
      [{ name := "A", columns := [exIntColumn "id", exIntColumn "y"], indexes := [],
         foreignKeys := [], primaryKey := some [1] },
       { name := "C", columns := [exIntColumn "aid"], indexes := [],
         foreignKeys := [⟨[0], "A", ["id"], "NoAction", "NoAction"⟩], primaryKey := none }]
    enums := [] }

/-- Witness for C1 on a concrete diff whose sorted plan is
`[CreateTable, AddForeignKey, AlterTable, DropForeignKey, DropTable]`. -/
theorem claim_C1_step_ordering_witness :
    ((calculate_steps ⟨exPrevC1, exNextC1⟩ exFlavour id)[3]? = some (.dropForeignKey 1 0)
      ∧ (calculate_steps ⟨exPrevC1, exNextC1⟩ exFlavour id)[4]? = some (.dropTable 1)
      ∧ (3 : Nat) < 4)
    ∧ ((calculate_steps ⟨exPrevC1, exNextC1⟩ exFlavour id)[0]? = some (.createTable 1)
      ∧ (calculate_steps ⟨exPrevC1, exNextC1⟩ exFlavour id)[1]? = some (.addForeignKey 1 0)
      ∧ (0 : Nat) < 1)
    ∧ (SqlMigrationStep.alterTable ⟨0, 0⟩
          [.dropPrimaryKey, .dropColumn 1, .addColumn 1, .addPrimaryKey]
        ∈ calculate_steps ⟨exPrevC1, exNextC1⟩ exFlavour id
      ∧ (0 : Nat) < 1 ∧ (2 : Nat) < 3) := by
  have h := claim_C1_step_ordering ⟨exPrevC1, exNextC1⟩ exFlavour id
  have hmem : SqlMigrationStep.alterTable ⟨0, 0⟩
      [.dropPrimaryKey, .dropColumn 1, .addColumn 1, .addPrimaryKey]
      ∈ calculate_steps ⟨exPrevC1, exNextC1⟩ exFlavour id := by decide
  have h3 := h.2.2 _ _ hmem
  refine ⟨⟨by decide, by decide,
      h.1 3 4 (.dropForeignKey 1 0) (.dropTable 1) (by decide) (by decide) rfl rfl⟩,
    ⟨by decide, by decide,
      h.2.1 0 1 (.createTable 1) (.addForeignKey 1 0) (by decide) (by decide) rfl rfl⟩,
    hmem, h3.1 0 1 .dropPrimaryKey (.dropColumn 1) (by decide) (by decide) rfl rfl,
    h3.2 2 3 (.addColumn 1) .addPrimaryKey (by decide) (by decide) rfl rfl⟩

end Prisma

namespace Prisma

/-- A table pair dropping two indexes: the `drop_indexes` `HashSet` holds
two entries, so its iteration order is observable in the plan. -/
def exIdxPair : Pair SqlSchema :=
  ⟨⟨[⟨"T", [exIntColumn "a", exIntColumn "b"],
      [⟨"i1", .normal, [0]⟩, ⟨"i2", .normal, [1]⟩], [], none⟩], []⟩,
   ⟨[⟨"T", [exIntColumn "a", exIntColumn "b"], [], [], none⟩], []⟩⟩

/-- C3 counterexample: two runs on equal inputs (same schema pair, same
flavour) whose `HashSet` iteration orders differ — both orders are
permutations of the set — return different step sequences, so the output
is not invariant under the `HashSet` iteration order. -/
theorem claim_C3_determinism_counterexample :
    (∀ l : List (Nat × Nat), (List.reverse l).Perm l)
    ∧ calculate_steps exIdxPair exFlavour List.reverse
        ≠ calculate_steps exIdxPair exFlavour id :=
  ⟨fun l => List.reverse_perm l, by decide⟩

theorem stepBuffer_perm (schemas : Pair SqlSchema) (fl : Flavour)
    {π₁ π₂ : List (Nat × Nat) → List (Nat × Nat)}
    (h₁ : ∀ l, (π₁ l).Perm l) (h₂ : ∀ l, (π₂ l).Perm l) :
    (stepBuffer schemas fl π₁).Perm (stepBuffer schemas fl π₂) := by
  unfold stepBuffer
  simp only
  refine List.Perm.append_left _ (List.Perm.append_left _ (List.Perm.append ?_ (List.Perm.refl _)))
  unfold dropIndexesSteps
  exact ((h₁ _).trans (h₂ _).symm).map _

theorem filter_dropIndexesSteps_eq_nil (fl : Flavour) (schemas : Pair SqlSchema)
    (r : List String) (π : List (Nat × Nat) → List (Nat × Nat)) {k : Nat} (hk : k ≠ 10) :
    (dropIndexesSteps fl schemas r π).filter (fun s => stepKind s == k) = [] := by
  refine List.filter_eq_nil_iff.mpr ?_
  intro a ha
  have := kind_of_mem_dropIndexesSteps ha
  simp only [beq_iff_eq]
  omega

/-- C3 amended: with the `HashSet` iteration order made explicit, two runs
with the same iteration order are identical by definition, two runs with
different iteration orders return permutations of each other, and the
sub-sequences of every step kind other than `DropIndex` coincide — but
the relative order of the `DropIndex` steps follows the iteration order,
so byte-identical output across runs fails (see the counterexample). -/
theorem claim_C3_determinism_amended (schemas : Pair SqlSchema) (fl : Flavour)
    (π₁ π₂ : List (Nat × Nat) → List (Nat × Nat))
    (h₁ : ∀ l, (π₁ l).Perm l) (h₂ : ∀ l, (π₂ l).Perm l) :
    (calculate_steps schemas fl π₁).Perm (calculate_steps schemas fl π₂)
    ∧ ∀ k, k ≠ 10 →
        (calculate_steps schemas fl π₁).filter (fun s => stepKind s == k)
          = (calculate_steps schemas fl π₂).filter (fun s => stepKind s == k) := by
  constructor
  · exact ((sortSteps_perm _).trans (stepBuffer_perm schemas fl h₁ h₂)).trans
      (sortSteps_perm _).symm
  · intro k hk
    unfold calculate_steps
    rw [filter_sortSteps, filter_sortSteps]
    unfold stepBuffer
    simp only [List.filter_append]
    rw [filter_dropIndexesSteps_eq_nil fl schemas _ π₁ hk,
      filter_dropIndexesSteps_eq_nil fl schemas _ π₂ hk]

/-- Witness for the amended C3: the two differing runs of the
counterexample still return permutations of each other. -/
theorem claim_C3_determinism_amended_witness :
    (calculate_steps exIdxPair exFlavour List.reverse).Perm
      (calculate_steps exIdxPair exFlavour id) :=
  (claim_C3_determinism_amended exIdxPair exFlavour List.reverse id
    (fun l => List.reverse_perm l) (fun l => List.Perm.refl l)).1

end Prisma

namespace Prisma

/-- Specification-side reading of C7, stated clause by clause over column
positions. -/
def foreignKeysMatchSpec (fl : Flavour) (tables : Pair Table) (fks : Pair ForeignKey) : Prop :=
  fl.table_names_match ⟨fks.previous.referencedTable, fks.next.referencedTable⟩ = true
    ∧ fks.previous.referencedColumns.length = fks.next.referencedColumns.length
    ∧ fks.previous.constrainedColumns.length = fks.next.constrainedColumns.length
    ∧ (∀ k : Nat, k < fks.previous.constrainedColumns.length →
        k < fks.next.constrainedColumns.length →
        (tables.previous.columnAt (fks.previous.constrainedColumns.getD k 0)).name
            = (tables.next.columnAt (fks.next.constrainedColumns.getD k 0)).name
          ∧ ((tables.previous.columnAt (fks.previous.constrainedColumns.getD k 0)).tpe
                = (tables.next.columnAt (fks.next.constrainedColumns.getD k 0)).tpe
              ∨ ((tables.previous.columnAt (fks.previous.constrainedColumns.getD k 0)).tpe
                    = .uuid
                  ∧ (tables.next.columnAt (fks.next.constrainedColumns.getD k 0)).tpe = .string)
              ∨ ((tables.previous.columnAt (fks.previous.constrainedColumns.getD k 0)).tpe
                    = .string
                  ∧ (tables.next.columnAt (fks.next.constrainedColumns.getD k 0)).tpe = .uuid))
          ∧ ((tables.previous.columnAt (fks.previous.constrainedColumns.getD k 0)).arity
                = (tables.next.columnAt (fks.next.constrainedColumns.getD k 0)).arity
              ∨ ((tables.previous.columnAt (fks.previous.constrainedColumns.getD k 0)).arity
                    = .required
                  ∧ (tables.next.columnAt (fks.next.constrainedColumns.getD k 0)).arity
                    = .nullable)
              ∨ fl.canCopeWithForeignKeyColumnBecomingNonnullable = true))
    ∧ (∀ k : Nat, k < fks.previous.referencedColumns.length →
        k < fks.next.referencedColumns.length →
        fks.previous.referencedColumns.getD k "" = fks.next.referencedColumns.getD k "")
    ∧ (fl.referentialActionsEnabled = true →
        fks.previous.onDeleteAction = fks.next.onDeleteAction
          ∧ fks.previous.onUpdateAction = fks.next.onUpdateAction)

theorem zip_all_iff {α β : Type} (f : α → β → Bool) (d₁ : α) (d₂ : β) :
    ∀ (l₁ : List α) (l₂ : List β),
      (((l₁.zip l₂).all fun p => f p.1 p.2) = true
        ↔ ∀ k : Nat, k < l₁.length → k < l₂.length → f (l₁.getD k d₁) (l₂.getD k d₂) = true) := by
  intro l₁
  induction l₁ with
  | nil => intro l₂; simp
  | cons x xs ih =>
    intro l₂
    cases l₂ with
    | nil => simp
    | cons y ys =>
      simp only [List.zip_cons_cons, List.all_cons, Bool.and_eq_true, ih ys, List.length_cons]
      constructor
      · rintro ⟨hxy, hall⟩ k hk₁ hk₂
        cases k with
        | zero => simpa using hxy
        | succ m =>
          simpa using hall m (by omega) (by omega)
      · intro hall
        refine ⟨by simpa using hall 0 (by omega) (by omega), fun m hm₁ hm₂ => ?_⟩
        simpa using hall (m + 1) (by omega) (by omega)

theorem families_match_iff (x y : ColumnTypeFamily) :
    ((match x, y with
      | ColumnTypeFamily.uuid, ColumnTypeFamily.string => true
      | ColumnTypeFamily.string, ColumnTypeFamily.uuid => true
      | x, y => x == y) = true)
      ↔ (x = y ∨ (x = .uuid ∧ y = .string) ∨ (x = .string ∧ y = .uuid)) := by
  cases x <;> cases y <;> simp

theorem arities_ok_iff (fl : Flavour) (a b : ColumnArity) :
    ((fl.canCopeWithForeignKeyColumnBecomingNonnullable
        || (a == b || (a.is_required && b.is_nullable))) = true)
      ↔ (a = b ∨ (a = .required ∧ b = .nullable)
          ∨ fl.canCopeWithForeignKeyColumnBecomingNonnullable = true) := by
  cases a <;> cases b <;>
    simp [ColumnArity.is_required, ColumnArity.is_nullable]

/-- C7: `foreign_keys_match` holds iff the referenced table names match
under the flavour's name equality, the referenced and constrained column
counts agree, each positional pair of constrained columns has the same
name, compatible type families (Uuid and String mutually compatible) and
compatible arities (equal, or required-to-nullable, any other change only
when the flavour copes with a FK column becoming non-nullable), the
referenced column names agree position-wise, and — when the
ReferentialActions preview feature is enabled — the on-delete and
on-update actions agree. -/
theorem claim_C7_foreign_keys_match (fl : Flavour) (tables : Pair Table)
    (fks : Pair ForeignKey) :
    foreign_keys_match fl tables fks = true ↔ foreignKeysMatchSpec fl tables fks := by
  unfold foreign_keys_match foreignKeysMatchSpec
  have hzc := zip_all_iff
    (fun (cp cn : Column) =>
      cp.name == cn.name
        && (match cp.tpe, cn.tpe with
          | ColumnTypeFamily.uuid, ColumnTypeFamily.string => true
          | ColumnTypeFamily.string, ColumnTypeFamily.uuid => true
          | x, y => x == y)
        && (fl.canCopeWithForeignKeyColumnBecomingNonnullable
          || (cp.arity == cn.arity || (cp.arity.is_required && cn.arity.is_nullable))))
    defaultColumn defaultColumn
    (constrainedColumnsOf tables.previous fks.previous)
    (constrainedColumnsOf tables.next fks.next)
  have hzr := zip_all_iff (fun (a b : String) => a == b) "" ""
    fks.previous.referencedColumns fks.next.referencedColumns
  have hlen₁ : (constrainedColumnsOf tables.previous fks.previous).length
      = fks.previous.constrainedColumns.length := by
    unfold constrainedColumnsOf; simp
  have hlen₂ : (constrainedColumnsOf tables.next fks.next).length
      = fks.next.constrainedColumns.length := by
    unfold constrainedColumnsOf; simp
  have hgd₁ : ∀ k : Nat, k < fks.previous.constrainedColumns.length →
      (constrainedColumnsOf tables.previous fks.previous).getD k defaultColumn
        = tables.previous.columnAt (fks.previous.constrainedColumns.getD k 0) := by
    intro k hk
    unfold constrainedColumnsOf
    rw [List.getD_eq_getElem _ _ (by simpa using hk), List.getElem_map,
      List.getD_eq_getElem _ _ hk]
  have hgd₂ : ∀ k : Nat, k < fks.next.constrainedColumns.length →
      (constrainedColumnsOf tables.next fks.next).getD k defaultColumn
        = tables.next.columnAt (fks.next.constrainedColumns.getD k 0) := by
    intro k hk
    unfold constrainedColumnsOf
    rw [List.getD_eq_getElem _ _ (by simpa using hk), List.getElem_map,
      List.getD_eq_getElem _ _ hk]
  rcases hra : fl.referentialActionsEnabled with _ | _
  · simp only [hra, Bool.false_eq_true, if_false, Bool.and_eq_true, beq_iff_eq]
    constructor
    · rintro ⟨⟨⟨⟨ht, hrc⟩, hcc⟩, hc⟩, hr⟩
      refine ⟨ht, hrc, hcc, ?_, ?_, by simp [hra]⟩
      · intro k hk₁ hk₂
        have := (hzc.mp hc) k (by omega) (by omega)
        rw [hgd₁ k hk₁, hgd₂ k hk₂] at this
        simp only [Bool.and_eq_true, beq_iff_eq] at this
        exact ⟨this.1.1, (families_match_iff _ _).mp this.1.2,
          (arities_ok_iff fl _ _).mp this.2⟩
      · intro k hk₁ hk₂
        have := (hzr.mp hr) k hk₁ hk₂
        simpa using this
    · rintro ⟨ht, hrc, hcc, hc, hr, _⟩
      refine ⟨⟨⟨⟨ht, hrc⟩, hcc⟩, ?_⟩, ?_⟩
      · refine hzc.mpr ?_
        intro k hk₁ hk₂
        rw [hgd₁ k (by omega), hgd₂ k (by omega)]
        have := hc k (by omega) (by omega)
        simp only [Bool.and_eq_true, beq_iff_eq]
        exact ⟨⟨this.1, (families_match_iff _ _).mpr this.2.1⟩,
          (arities_ok_iff fl _ _).mpr this.2.2⟩
      · refine hzr.mpr ?_
        intro k hk₁ hk₂
        simpa using hr k hk₁ hk₂
  · simp only [hra, if_true, Bool.and_eq_true, beq_iff_eq]
    constructor
    · rintro ⟨⟨⟨⟨⟨⟨ht, hrc⟩, hcc⟩, hc⟩, hr⟩, hd⟩, hu⟩
      refine ⟨ht, hrc, hcc, ?_, ?_, fun _ => ⟨hd, hu⟩⟩
      · intro k hk₁ hk₂
        have := (hzc.mp hc) k (by omega) (by omega)
        rw [hgd₁ k hk₁, hgd₂ k hk₂] at this
        simp only [Bool.and_eq_true, beq_iff_eq] at this
        exact ⟨this.1.1, (families_match_iff _ _).mp this.1.2,
          (arities_ok_iff fl _ _).mp this.2⟩
      · intro k hk₁ hk₂
        have := (hzr.mp hr) k hk₁ hk₂
        simpa using this
    · rintro ⟨ht, hrc, hcc, hc, hr, hact⟩
      obtain ⟨hd, hu⟩ := hact (by simp)
      refine ⟨⟨⟨⟨⟨⟨ht, hrc⟩, hcc⟩, ?_⟩, ?_⟩, hd⟩, hu⟩
      · refine hzc.mpr ?_
        intro k hk₁ hk₂
        rw [hgd₁ k (by omega), hgd₂ k (by omega)]
        have := hc k (by omega) (by omega)
        simp only [Bool.and_eq_true, beq_iff_eq]
        exact ⟨⟨this.1, (families_match_iff _ _).mpr this.2.1⟩,
          (arities_ok_iff fl _ _).mpr this.2.2⟩
      · refine hzr.mpr ?_
        intro k hk₁ hk₂
        simpa using hr k hk₁ hk₂

end Prisma

namespace Prisma

theorem mem_columnPairs_iff {fl : Flavour} {tables : Pair Table} {p : Pair Nat} :
    p ∈ columnPairs fl tables
      ↔ p.previous < tables.previous.columns.length
        ∧ findColumnMatch fl tables.next.columns
            (tables.previous.columnAt p.previous).name = some p.next := by
  unfold columnPairs
  rw [List.mem_filterMap]
  constructor
  · rintro ⟨c, hc, hf⟩
    obtain ⟨c2, hc2, hp⟩ := Option.map_eq_some'.mp hf
    cases hp
    exact ⟨List.mem_range.mp hc, hc2⟩
  · rintro ⟨h1, h2⟩
    exact ⟨p.previous, List.mem_range.mpr h1, by rw [h2]; rfl⟩

theorem columnPairs_prev_injective {fl : Flavour} {tables : Pair Table} {p q : Pair Nat}
    (hp : p ∈ columnPairs fl tables) (hq : q ∈ columnPairs fl tables)
    (hpq : p.previous = q.previous) : p = q := by
  obtain ⟨_, hp2⟩ := mem_columnPairs_iff.mp hp
  obtain ⟨_, hq2⟩ := mem_columnPairs_iff.mp hq
  rw [hpq, hq2] at hp2
  have h3 := Option.some.inj hp2
  cases p
  cases q
  simp_all

theorem columnPairs_nodup (fl : Flavour) (tables : Pair Table) :
    (columnPairs fl tables).Nodup := by
  unfold columnPairs
  refine List.Nodup.filterMap ?_ (List.nodup_range _)
  intro a b c hac hbc
  obtain ⟨c2, _, hp⟩ := Option.map_eq_some'.mp hac
  obtain ⟨c3, _, hq⟩ := Option.map_eq_some'.mp hbc
  have : a = c.previous := by rw [← hp]
  have hb : b = c.previous := by rw [← hq]
  omega

theorem countP_filterMap {α β : Type} (f : α → Option β) (q : β → Bool) :
    ∀ l : List α, (l.filterMap f).countP q
      = l.countP fun a => ((f a).map q).getD false := by
  intro l
  induction l with
  | nil => simp
  | cons x xs ih =>
    cases hx : f x <;>
      simp [List.filterMap_cons, hx, List.countP_cons, ih]

theorem countP_eq_one_of_unique {α : Type} {p : α → Bool} {l : List α} {a : α}
    (hnd : l.Nodup) (ha : a ∈ l) (hpa : p a = true)
    (huniq : ∀ b ∈ l, p b = true → b = a) : l.countP p = 1 := by
  induction l with
  | nil => cases ha
  | cons x xs ih =>
    rw [List.countP_cons]
    rcases List.nodup_cons.mp hnd with ⟨hx, hxs⟩
    rcases List.mem_cons.mp ha with hax | hax
    · subst hax
      rw [if_pos hpa]
      have h0 : xs.countP p = 0 := by
        refine List.countP_eq_zero.mpr ?_
        intro b hb hpb
        have := huniq b (List.mem_cons_of_mem _ hb) hpb
        subst this
        exact hx hb
      omega
    · have hpx : ¬p x = true := by
        intro hpx
        have := huniq x (List.mem_cons_self _ _) hpx
        subst this
        exact hx hax
      rw [if_neg hpx]
      have := ih hxs hax fun b hb hpb => huniq b (List.mem_cons_of_mem _ hb) hpb
      omega

/-- If a column pair has any type change, its change bitset is nonempty
(the `TypeChanged` bit is set). -/
theorem differs_of_type_change {fl : Flavour} {tables : Pair Table} {ids : Pair Nat}
    {tc : ColumnTypeChange} (h : (allChanges fl tables ids).2 = some tc) :
    (allChanges fl tables ids).1.differs_in_something = true := by
  unfold allChanges at h ⊢
  simp only at h ⊢
  unfold columnTypeChangeOf at h
  unfold columnChangesOf ColumnChanges.differs_in_something
  simp only
  split at h
  · cases h
  · rename_i hne
    simp only [bne, hne]
    rfl

theorem alterColumnChangeFor_notCastable {fl : Flavour} {tables : Pair Table} {ids : Pair Nat}
    (hnc : (allChanges fl tables ids).2 = some .notCastable) :
    alterColumnChangeFor fl tables ids
      = some (.dropAndRecreateColumn ids (allChanges fl tables ids).1) := by
  unfold alterColumnChangeFor
  simp only
  rw [if_neg (by simp [differs_of_type_change hnc])]
  rw [show (allChanges fl tables ids).2 = some ColumnTypeChange.notCastable from hnc]

/-- C5: for every paired column classified `NotCastable`, the alter-column
change list contains exactly one `DropAndRecreateColumn` for that column
pair, and no `AlterColumn` whose previous column is that column. -/
theorem claim_C5_not_castable_triage (fl : Flavour) (tables : Pair Table) (ids : Pair Nat)
    (hmem : ids ∈ columnPairs fl tables)
    (hnc : (allChanges fl tables ids).2 = some .notCastable) :
    ((alter_columns fl tables).countP fun tc =>
        match tc with
        | .dropAndRecreateColumn ids2 _ => ids2 == ids
        | _ => false) = 1
    ∧ ((alter_columns fl tables).countP fun tc =>
        match tc with
        | .alterColumn ids2 _ _ => ids2.previous == ids.previous
        | _ => false) = 0 := by
  have sortKeyOf : ∀ (b : Pair Nat) (tc : TableChange),
      alterColumnChangeFor fl tables b = some tc → tc.sortKey = b := by
    intro b tc hf
    unfold alterColumnChangeFor at hf
    simp only at hf
    split at hf
    · cases hf
    · split at hf <;> cases hf <;> rfl
  unfold alter_columns
  rw [(List.perm_insertionSort _ _).countP_eq, (List.perm_insertionSort _ _).countP_eq,
    countP_filterMap, countP_filterMap]
  constructor
  · refine countP_eq_one_of_unique (columnPairs_nodup fl tables) hmem ?_ ?_
    · rw [alterColumnChangeFor_notCastable hnc]
      simp
    · intro b hb hpb
      rcases hf : alterColumnChangeFor fl tables b with _ | tc
      · rw [hf] at hpb; cases hpb
      · rw [hf] at hpb
        simp only [Option.map_some', Option.getD_some] at hpb
        have hbids := sortKeyOf b tc hf
        cases tc with
        | dropAndRecreateColumn ids2 ch =>
          have h1 : ids2 = ids := by simpa using hpb
          have h2 : ids2 = b := by simpa [TableChange.sortKey] using hbids
          rw [← h2, h1]
        | dropPrimaryKey => cases hpb
        | dropColumn c => cases hpb
        | addColumn c => cases hpb
        | alterColumn a bch c => cases hpb
        | addPrimaryKey => cases hpb
  · refine List.countP_eq_zero.mpr ?_
    intro b hb hpb
    rcases hf : alterColumnChangeFor fl tables b with _ | tc
    · rw [hf] at hpb; cases hpb
    · rw [hf] at hpb
      simp only [Option.map_some', Option.getD_some] at hpb
      have hbids := sortKeyOf b tc hf
      cases tc with
      | alterColumn ids2 ch otc =>
        have h1 : ids2.previous = ids.previous := by simpa using hpb
        have h2 : ids2 = b := by simpa [TableChange.sortKey] using hbids
        subst h2
        have h4 : ids2 = ids := columnPairs_prev_injective hb hmem h1
        subst h4
        rw [alterColumnChangeFor_notCastable hnc] at hf
        cases hf
      | dropPrimaryKey => cases hpb
      | dropColumn c => cases hpb
      | addColumn c => cases hpb
      | dropAndRecreateColumn a bch => cases hpb
      | addPrimaryKey => cases hpb

end Prisma

namespace Prisma

/-- A `String → Int` column change, classified `NotCastable` by
`exFlavour` (the spec's scenario 3). -/
def exC5Tables : Pair Table :=
  ⟨⟨"T", [⟨"x", .string, .required, none, false⟩], [], [], none⟩,
   ⟨"T", [⟨"x", .int, .required, none, false⟩], [], [], none⟩⟩

/-- Witness for C5: the single changed column yields exactly one
`DropAndRecreateColumn` and no `AlterColumn`. -/
theorem claim_C5_not_castable_triage_witness :
    ((⟨0, 0⟩ : Pair Nat) ∈ columnPairs exFlavour exC5Tables
        ∧ (allChanges exFlavour exC5Tables ⟨0, 0⟩).2 = some .notCastable)
    ∧ ((alter_columns exFlavour exC5Tables).countP fun tc =>
        match tc with
        | .dropAndRecreateColumn ids2 _ => ids2 == (⟨0, 0⟩ : Pair Nat)
        | _ => false) = 1
    ∧ ((alter_columns exFlavour exC5Tables).countP fun tc =>
        match tc with
        | .alterColumn ids2 _ _ => ids2.previous == (⟨0, 0⟩ : Pair Nat).previous
        | _ => false) = 0 :=
  ⟨⟨by decide, by decide⟩,
    claim_C5_not_castable_triage exFlavour exC5Tables ⟨0, 0⟩ (by decide) (by decide)⟩

/-- C6: when the flavour recreates the primary key on column recreate and
some `DropAndRecreateColumn` concerns a column of the previous primary
key, the `AlterTable` change list starts with `DropPrimaryKey` and ends
with `AddPrimaryKey`. -/
theorem claim_C6_pk_recreated_around_column_recreate (fl : Flavour) (tables : Pair Table)
    (hfl : fl.shouldRecreateThePrimaryKeyOnColumnRecreate = true)
    (hrec : recreatesPkColumn fl tables = true) :
    (alterTableChanges fl tables).head? = some .dropPrimaryKey
    ∧ (alterTableChanges fl tables).getLast? = some .addPrimaryKey := by
  have hdrop : drop_primary_key fl tables = some .dropPrimaryKey := by
    unfold drop_primary_key
    rcases hd : droppedPrimaryKey tables with _ | pk <;>
      simp only [hd, hfl, if_true, Option.map_none', Option.map_some', option_none_orElse,
        option_some_orElse, hrec]
  have hadd : add_primary_key fl tables = some .addPrimaryKey := by
    unfold add_primary_key
    rcases hd : (createdPrimaryKey tables).filter (fun pk => !pk.isEmpty) with _ | pk <;>
      simp only [hd, hfl, if_true, Option.map_none', Option.map_some', option_none_orElse,
        option_some_orElse, hrec]
  constructor
  · unfold alterTableChanges
    rw [hdrop]
    rfl
  · unfold alterTableChanges
    rw [hadd]
    simp [Option.toList]

end Prisma

namespace Prisma

/-- A `NotCastable` change of the single primary-key column, with the
primary-key definition itself unchanged between the two schemas. -/
def exC6Tables : Pair Table :=
  ⟨⟨"T", [⟨"x", .string, .required, none, false⟩], [], [], some [0]⟩,
   ⟨"T", [⟨"x", .int, .required, none, false⟩], [], [], some [0]⟩⟩

/-- Witness for C6: the primary key is unchanged, yet the change list is
`[DropPrimaryKey, DropAndRecreateColumn, AddPrimaryKey]`. -/
theorem claim_C6_pk_recreated_around_column_recreate_witness :
    (exFlavour.shouldRecreateThePrimaryKeyOnColumnRecreate = true
        ∧ recreatesPkColumn exFlavour exC6Tables = true
        ∧ pkColumnNames exC6Tables.previous = pkColumnNames exC6Tables.next)
    ∧ (alterTableChanges exFlavour exC6Tables).head? = some .dropPrimaryKey
    ∧ (alterTableChanges exFlavour exC6Tables).getLast? = some .addPrimaryKey :=
  ⟨⟨rfl, by decide, by decide⟩,
    claim_C6_pk_recreated_around_column_recreate exFlavour exC6Tables rfl (by decide)⟩

end Prisma

namespace Prisma

/-! ## Identity: diffing a schema against itself -/

theorem firstMatchIdx_some {α : Type} {p : α → Bool} :
    ∀ {l : List α} {j : Nat}, firstMatchIdx p l = some j →
      ∃ h : j < l.length, p l[j] = true := by
  intro l
  induction l with
  | nil => intro j h; cases h
  | cons x xs ih =>
    intro j h
    unfold firstMatchIdx at h
    split at h
    · cases h
      exact ⟨by simp, by assumption⟩
    · obtain ⟨m, hm, hj⟩ := Option.map_eq_some'.mp h
      cases hj
      obtain ⟨hlt, hp⟩ := ih hm
      exact ⟨by simpa using Nat.succ_lt_succ hlt, by simpa using hp⟩

theorem firstMatchIdx_self {α : Type} (key : α → String) :
    ∀ (l : List α) (i : Nat) (hi : i < l.length),
      (l.Pairwise fun a b => key a ≠ key b) →
      firstMatchIdx (fun x => key l[i] == key x) l = some i := by
  intro l
  induction l with
  | nil => intro i hi hdist; simp at hi
  | cons x xs ih =>
    intro i hi hdist
    obtain ⟨hhead, htail⟩ := List.pairwise_cons.mp hdist
    cases i with
    | zero =>
      unfold firstMatchIdx
      rw [if_pos (by simp)]
    | succ m =>
      have hm : m < xs.length := by simpa using hi
      unfold firstMatchIdx
      have hget : (x :: xs)[m + 1] = xs[m] := by simp
      rw [if_neg ?hneg]
      case hneg =>
        rw [hget]
        simp only [beq_eq_false_iff_ne, ne_eq, beq_iff_eq]
        intro hkey
        exact hhead xs[m] (List.getElem_mem hm) hkey.symm
      have := ih m hm htail
      rw [show (fun t2 => key (x :: xs)[m + 1] == key t2) = fun t2 => key xs[m] == key t2
        from by rw [hget]]
      rw [this]
      rfl

theorem zip_self {α : Type} : ∀ l : List α, l.zip l = l.map fun a => (a, a) := by
  intro l
  induction l with
  | nil => rfl
  | cons x xs ih => simp [List.zip_cons_cons, ih]

theorem indexesMatch_refl (i : Index) : indexesMatch i i = true := by
  simp [indexesMatch]

theorem foreign_keys_match_refl (fl : Flavour) (t : Table) (fk : ForeignKey) :
    foreign_keys_match fl ⟨t, t⟩ ⟨fk, fk⟩ = true := by
  unfold foreign_keys_match
  simp only [Flavour.table_names_match, beq_self_eq_true, Bool.true_and, zip_self,
    List.all_map]
  have hc : (constrainedColumnsOf t fk).all (fun a =>
      (a.name == a.name
        && match a.tpe, a.tpe with
          | ColumnTypeFamily.uuid, ColumnTypeFamily.string => true
          | ColumnTypeFamily.string, ColumnTypeFamily.uuid => true
          | x, y => x == y)
        && (fl.canCopeWithForeignKeyColumnBecomingNonnullable
          || (a.arity == a.arity || a.arity.is_required && a.arity.is_nullable))) = true := by
    refine List.all_eq_true.mpr ?_
    intro a _
    cases ha : a.tpe <;> simp [ha]
  have hr : fk.referencedColumns.all (fun a => a == a) = true := by
    refine List.all_eq_true.mpr ?_
    intro a _
    simp
  rcases hb : fl.referentialActionsEnabled with _ | _ <;>
    simp_all [Function.comp]

theorem createdForeignKeys_self (fl : Flavour) (t : Table) :
    createdForeignKeys fl ⟨t, t⟩ = [] := by
  unfold createdForeignKeys
  refine List.filter_eq_nil_iff.mpr ?_
  intro j hj
  simp only [Bool.not_eq_true', Bool.not_eq_false]
  refine List.any_eq_true.mpr ?_
  exact ⟨t.foreignKeys.getD j default,
    by rw [List.getD_eq_getElem _ _ (by simpa using List.mem_range.mp hj)]
       exact List.getElem_mem _,
    foreign_keys_match_refl fl t _⟩

theorem droppedForeignKeys_self (fl : Flavour) (t : Table) :
    droppedForeignKeys fl ⟨t, t⟩ = [] := by
  unfold droppedForeignKeys
  refine List.filter_eq_nil_iff.mpr ?_
  intro j hj
  simp only [Bool.not_eq_true', Bool.not_eq_false]
  refine List.any_eq_true.mpr ?_
  exact ⟨t.foreignKeys.getD j default,
    by rw [List.getD_eq_getElem _ _ (by simpa using List.mem_range.mp hj)]
       exact List.getElem_mem _,
    foreign_keys_match_refl fl t _⟩

end Prisma

namespace Prisma

theorem findTableMatch_self (fl : Flavour) (s : SqlSchema)
    (hwf : s.tables.Pairwise fun a b =>
      fl.tableNameNormalize a.name ≠ fl.tableNameNormalize b.name)
    {t : Nat} (ht : t < s.tables.length) :
    findTableMatch fl s.tables (s.tables.getD t default).name = some t := by
  unfold findTableMatch Flavour.table_names_match
  rw [List.getD_eq_getElem _ _ ht]
  exact firstMatchIdx_self (fun tb => fl.tableNameNormalize tb.name) s.tables t ht hwf

theorem tablePairs_self (fl : Flavour) (s : SqlSchema)
    (hwf : s.tables.Pairwise fun a b =>
      fl.tableNameNormalize a.name ≠ fl.tableNameNormalize b.name) :
    tablePairs fl ⟨s, s⟩ = (List.range s.tables.length).map fun t => ⟨t, t⟩ := by
  unfold tablePairs
  rw [← List.filterMap_eq_map]
  refine List.filterMap_congr ?_
  intro t ht
  rw [findTableMatch_self fl s hwf (List.mem_range.mp ht)]
  rfl

theorem findColumnMatch_self (fl : Flavour) (T : Table)
    (hwf : T.columns.Pairwise fun a b =>
      fl.columnNameNormalize a.name ≠ fl.columnNameNormalize b.name)
    {c : Nat} (hc : c < T.columns.length) :
    findColumnMatch fl T.columns (T.columnAt c).name = some c := by
  unfold findColumnMatch Flavour.column_names_match Table.columnAt
  rw [List.getD_eq_getElem _ _ hc]
  exact firstMatchIdx_self (fun cl => fl.columnNameNormalize cl.name) T.columns c hc hwf

theorem columnPairs_self (fl : Flavour) (T : Table)
    (hwf : T.columns.Pairwise fun a b =>
      fl.columnNameNormalize a.name ≠ fl.columnNameNormalize b.name) :
    columnPairs fl ⟨T, T⟩ = (List.range T.columns.length).map fun c => ⟨c, c⟩ := by
  unfold columnPairs
  rw [← List.filterMap_eq_map]
  refine List.filterMap_congr ?_
  intro c hc
  rw [show (Pair.mk T T).next.columns = T.columns from rfl,
    findColumnMatch_self fl T hwf (List.mem_range.mp hc)]
  rfl

theorem createdTables_self (fl : Flavour) (s : SqlSchema) :
    createdTables fl ⟨s, s⟩ = [] := by
  unfold createdTables
  refine List.filter_eq_nil_iff.mpr ?_
  intro t ht
  simp only [Bool.not_eq_true', Bool.not_eq_false]
  refine List.any_eq_true.mpr ?_
  refine ⟨s.tables.getD t default, ?_, by simp [Flavour.table_names_match]⟩
  rw [List.getD_eq_getElem _ _ (by simpa using List.mem_range.mp ht)]
  exact List.getElem_mem _

theorem droppedTables_self (fl : Flavour) (s : SqlSchema) :
    droppedTables fl ⟨s, s⟩ = [] := by
  unfold droppedTables
  refine List.filter_eq_nil_iff.mpr ?_
  intro t ht
  simp only [Bool.not_eq_true', Bool.not_eq_false]
  refine List.any_eq_true.mpr ?_
  refine ⟨s.tables.getD t default, ?_, by simp [Flavour.table_names_match]⟩
  rw [List.getD_eq_getElem _ _ (by simpa using List.mem_range.mp ht)]
  exact List.getElem_mem _

theorem droppedColumns_self (fl : Flavour) (T : Table) :
    droppedColumns fl ⟨T, T⟩ = [] := by
  unfold droppedColumns
  refine List.filter_eq_nil_iff.mpr ?_
  intro c hc
  simp only [Bool.not_eq_true', Bool.not_eq_false]
  refine List.any_eq_true.mpr ?_
  refine ⟨(Pair.mk T T).previous.columnAt c, ?_, by simp [Flavour.column_names_match]⟩
  unfold Table.columnAt
  rw [List.getD_eq_getElem _ _ (by simpa using List.mem_range.mp hc)]
  exact List.getElem_mem _

theorem addedColumns_self (fl : Flavour) (T : Table) :
    addedColumns fl ⟨T, T⟩ = [] := by
  unfold addedColumns
  refine List.filter_eq_nil_iff.mpr ?_
  intro c hc
  simp only [Bool.not_eq_true', Bool.not_eq_false]
  refine List.any_eq_true.mpr ?_
  refine ⟨(Pair.mk T T).next.columnAt c, ?_, by simp [Flavour.column_names_match]⟩
  unfold Table.columnAt
  rw [List.getD_eq_getElem _ _ (by simpa using List.mem_range.mp hc)]
  exact List.getElem_mem _

theorem droppedIndexes_self (T : Table) : droppedIndexes ⟨T, T⟩ = [] := by
  unfold droppedIndexes
  refine List.filter_eq_nil_iff.mpr ?_
  intro i hi
  simp only [Bool.not_eq_true', Bool.not_eq_false]
  refine List.any_eq_true.mpr ?_
  refine ⟨T.indexes.getD i default, ?_, indexesMatch_refl _⟩
  rw [List.getD_eq_getElem _ _ (by simpa using List.mem_range.mp hi)]
  exact List.getElem_mem _

theorem createdIndexes_self (T : Table) : createdIndexes ⟨T, T⟩ = [] := by
  unfold createdIndexes
  refine List.filter_eq_nil_iff.mpr ?_
  intro i hi
  simp only [Bool.not_eq_true', Bool.not_eq_false]
  refine List.any_eq_true.mpr ?_
  refine ⟨T.indexes.getD i default, ?_, indexesMatch_refl _⟩
  rw [List.getD_eq_getElem _ _ (by simpa using List.mem_range.mp hi)]
  exact List.getElem_mem _

theorem createdEnums_self (s : SqlSchema) : createdEnums ⟨s, s⟩ = [] := by
  unfold createdEnums
  refine List.filter_eq_nil_iff.mpr ?_
  intro j hj
  simp only [Bool.not_eq_true', Bool.not_eq_false]
  refine List.any_eq_true.mpr ?_
  refine ⟨s.enums.getD j default, ?_, by simp [enums_match]⟩
  rw [List.getD_eq_getElem _ _ (by simpa using List.mem_range.mp hj)]
  exact List.getElem_mem _

theorem droppedEnums_self (s : SqlSchema) : droppedEnums ⟨s, s⟩ = [] := by
  unfold droppedEnums
  refine List.filter_eq_nil_iff.mpr ?_
  intro j hj
  simp only [Bool.not_eq_true', Bool.not_eq_false]
  refine List.any_eq_true.mpr ?_
  refine ⟨s.enums.getD j default, ?_, by simp [enums_match]⟩
  rw [List.getD_eq_getElem _ _ (by simpa using List.mem_range.mp hj)]
  exact List.getElem_mem _

theorem allChanges_self (fl : Flavour) (T : Table) (c c2 : Nat) (hcc : c = c2) :
    allChanges fl ⟨T, T⟩ ⟨c, c2⟩ = (⟨false, false, false, false⟩, none) := by
  subst hcc
  unfold allChanges columnChangesOf columnTypeChangeOf
  simp

theorem alter_columns_self (fl : Flavour) (T : Table)
    (hwf : T.columns.Pairwise fun a b =>
      fl.columnNameNormalize a.name ≠ fl.columnNameNormalize b.name) :
    alter_columns fl ⟨T, T⟩ = [] := by
  unfold alter_columns
  rw [columnPairs_self fl T hwf, List.filterMap_map]
  have : ∀ c ∈ List.range T.columns.length,
      (alterColumnChangeFor fl ⟨T, T⟩ ∘ fun c => (⟨c, c⟩ : Pair Nat)) c = none := by
    intro c _
    show alterColumnChangeFor fl ⟨T, T⟩ ⟨c, c⟩ = none
    unfold alterColumnChangeFor
    rw [allChanges_self fl T c c rfl]
    rfl
  rw [List.filterMap_eq_nil_iff.mpr this]
  rfl

end Prisma

namespace Prisma

theorem createdPrimaryKey_self (T : Table) : createdPrimaryKey ⟨T, T⟩ = none := by
  unfold createdPrimaryKey
  rcases h : T.primaryKey with _ | pk
  · rfl
  · simp [h]

theorem droppedPrimaryKey_self (T : Table) : droppedPrimaryKey ⟨T, T⟩ = none := by
  unfold droppedPrimaryKey
  rcases h : T.primaryKey with _ | pk
  · rfl
  · simp [h]

theorem recreatesPkColumn_self (fl : Flavour) (T : Table)
    (hwf : T.columns.Pairwise fun a b =>
      fl.columnNameNormalize a.name ≠ fl.columnNameNormalize b.name) :
    recreatesPkColumn fl ⟨T, T⟩ = false := by
  unfold recreatesPkColumn
  rw [alter_columns_self fl T hwf]
  rfl

theorem drop_primary_key_self (fl : Flavour) (T : Table)
    (hwf : T.columns.Pairwise fun a b =>
      fl.columnNameNormalize a.name ≠ fl.columnNameNormalize b.name) :
    drop_primary_key fl ⟨T, T⟩ = none := by
  unfold drop_primary_key
  rw [droppedPrimaryKey_self T]
  rcases hb : fl.shouldRecreateThePrimaryKeyOnColumnRecreate with _ | _ <;>
    simp only [hb, Bool.false_eq_true, if_false, if_true, Option.map_none', option_none_orElse]
  rw [recreatesPkColumn_self fl T hwf]
  rfl

theorem add_primary_key_self (fl : Flavour) (T : Table)
    (hwf : T.columns.Pairwise fun a b =>
      fl.columnNameNormalize a.name ≠ fl.columnNameNormalize b.name) :
    add_primary_key fl ⟨T, T⟩ = none := by
  unfold add_primary_key
  rw [createdPrimaryKey_self T]
  rcases hb : fl.shouldRecreateThePrimaryKeyOnColumnRecreate with _ | _ <;>
    simp only [hb, Bool.false_eq_true, if_false, if_true, Option.filter_none, Option.map_none',
      option_none_orElse]
  rw [recreatesPkColumn_self fl T hwf]
  rfl

theorem alterTableChanges_self (fl : Flavour) (T : Table)
    (hwf : T.columns.Pairwise fun a b =>
      fl.columnNameNormalize a.name ≠ fl.columnNameNormalize b.name) :
    alterTableChanges fl ⟨T, T⟩ = [] := by
  unfold alterTableChanges
  rw [drop_primary_key_self fl T hwf, add_primary_key_self fl T hwf,
    droppedColumns_self fl T, addedColumns_self fl T, alter_columns_self fl T hwf]
  rfl

theorem enumPairs_self (s : SqlSchema)
    (hwf : s.enums.Pairwise fun a b => a.name ≠ b.name) :
    enumPairs ⟨s, s⟩ = (List.range s.enums.length).map fun i => ⟨i, i⟩ := by
  unfold enumPairs
  rw [← List.filterMap_eq_map]
  refine List.filterMap_congr ?_
  intro i hi
  have hi' := List.mem_range.mp hi
  have : firstMatchIdx (fun n => enums_match (s.enums.getD i default) n) s.enums = some i := by
    unfold enums_match
    rw [List.getD_eq_getElem _ _ hi']
    exact firstMatchIdx_self (fun e => e.name) s.enums i hi' hwf
  rw [show (Pair.mk s s).next.enums = s.enums from rfl, this]
  rfl

theorem alterEnumsOf_self (s : SqlSchema)
    (hwf : s.enums.Pairwise fun a b => a.name ≠ b.name) :
    alterEnumsOf ⟨s, s⟩ = [] := by
  unfold alterEnumsOf
  rw [enumPairs_self s hwf, List.filterMap_map]
  refine List.filterMap_eq_nil_iff.mpr ?_
  intro i _
  simp [Function.comp]

theorem indexPairs_renamed_false {tables : Pair Table} {ip : Pair Nat}
    (h : ip ∈ indexPairs tables) :
    indexShouldBeRenamed ⟨tables.previous.indexes.getD ip.previous default,
      tables.next.indexes.getD ip.next default⟩ = false := by
  unfold indexPairs at h
  obtain ⟨i, hi, hf⟩ := List.mem_filterMap.mp h
  obtain ⟨j, hj, hp⟩ := Option.map_eq_some'.mp hf
  cases hp
  obtain ⟨hlt, hmatch⟩ := firstMatchIdx_some hj
  unfold indexesMatch at hmatch
  simp only [Bool.and_eq_true, beq_iff_eq] at hmatch
  unfold indexShouldBeRenamed
  rw [List.getD_eq_getElem _ _ hlt]
  simp only [hmatch.1.1, bne_self_eq_false]

/-- `alter_indexes` never fires: indexes pair only when their names (and
structure) agree, so the rename predicate is false on every pair. -/
theorem alterIndexesList_eq_nil (fl : Flavour) (schemas : Pair SqlSchema) (r : List String) :
    alterIndexesList fl schemas r = [] := by
  unfold alterIndexesList
  refine List.flatMap_eq_nil_iff.mpr ?_
  intro tp _
  have hfilter : ((indexPairs (Pair.tables schemas tp)).filter fun ip =>
      indexShouldBeRenamed ⟨(Pair.tables schemas tp).previous.indexes.getD ip.previous default,
        (Pair.tables schemas tp).next.indexes.getD ip.next default⟩) = [] := by
    refine List.filter_eq_nil_iff.mpr ?_
    intro ip hip
    rw [indexPairs_renamed_false hip]
    simp
  simp only
  rw [hfilter]
  rfl

theorem tablesToRedefine_self (fl : Flavour) (s : SqlSchema)
    (hwft : s.tables.Pairwise fun a b =>
      fl.tableNameNormalize a.name ≠ fl.tableNameNormalize b.name) :
    tablesToRedefine fl ⟨s, s⟩ = [] := by
  unfold tablesToRedefine
  rcases hb : fl.redefinesTables with _ | _
  · simp
  · simp only [if_true]
    rw [tablePairs_self fl s hwft, List.filterMap_map]
    refine List.filterMap_eq_nil_iff.mpr ?_
    intro t _
    show (if !(createdForeignKeys fl (Pair.tables ⟨s, s⟩ ⟨t, t⟩)).isEmpty
        || !(droppedForeignKeys fl (Pair.tables ⟨s, s⟩ ⟨t, t⟩)).isEmpty
        || (createdPrimaryKey (Pair.tables ⟨s, s⟩ ⟨t, t⟩)).isSome
        || (droppedPrimaryKey (Pair.tables ⟨s, s⟩ ⟨t, t⟩)).isSome
      then some (Pair.tables ⟨s, s⟩ ⟨t, t⟩).next.name else none) = none
    have hT : Pair.tables ⟨s, s⟩ ⟨t, t⟩
        = ⟨s.tables.getD t default, s.tables.getD t default⟩ := rfl
    rw [hT, createdForeignKeys_self, droppedForeignKeys_self, createdPrimaryKey_self,
      droppedPrimaryKey_self]
    rfl

end Prisma

namespace Prisma

theorem mem_tablePairs_self {fl : Flavour} {s : SqlSchema} {tp : Pair Nat}
    (hwft : s.tables.Pairwise fun a b =>
      fl.tableNameNormalize a.name ≠ fl.tableNameNormalize b.name)
    (h : tp ∈ tablePairs fl ⟨s, s⟩) :
    ∃ t, t < s.tables.length ∧ tp = ⟨t, t⟩ := by
  rw [tablePairs_self fl s hwft] at h
  obtain ⟨t, ht, htp⟩ := List.mem_map.mp h
  exact ⟨t, List.mem_range.mp ht, htp.symm⟩

theorem pushCreateTables_self (fl : Flavour) (s : SqlSchema) :
    pushCreateTables fl ⟨s, s⟩ = [] := by
  unfold pushCreateTables
  rw [createdTables_self]
  rfl

theorem dropTablesSteps_self (fl : Flavour) (s : SqlSchema) :
    dropTablesSteps fl ⟨s, s⟩ = [] := by
  unfold dropTablesSteps
  rw [droppedTables_self]
  rfl

theorem dropIndexesSet_self (fl : Flavour) (s : SqlSchema)
    (hwft : s.tables.Pairwise fun a b =>
      fl.tableNameNormalize a.name ≠ fl.tableNameNormalize b.name) :
    dropIndexesSet fl ⟨s, s⟩ [] = [] := by
  unfold dropIndexesSet
  have h1 : ((tablePairs fl ⟨s, s⟩).flatMap fun tp =>
      ((droppedIndexes (Pair.tables ⟨s, s⟩ tp)).filter fun i =>
          !(fl.shouldSkipFkIndexes
            && indexCoversFk (Pair.tables ⟨s, s⟩ tp).previous
              ((Pair.tables ⟨s, s⟩ tp).previous.indexes.getD i default))).map
        fun i => (tp.previous, i)) = [] := by
    refine List.flatMap_eq_nil_iff.mpr ?_
    intro tp htp
    obtain ⟨t, ht, rfl⟩ := mem_tablePairs_self hwft htp
    have hT : Pair.tables ⟨s, s⟩ (⟨t, t⟩ : Pair Nat)
        = ⟨s.tables.getD t default, s.tables.getD t default⟩ := rfl
    rw [hT, droppedIndexes_self]
    rfl
  simp only
  rw [h1]
  simp

theorem createIndexesSteps_self (fl : Flavour) (s : SqlSchema) (r : List String)
    (hwft : s.tables.Pairwise fun a b =>
      fl.tableNameNormalize a.name ≠ fl.tableNameNormalize b.name)
    (hwfc : ∀ t ∈ s.tables,
      t.columns.Pairwise fun a b =>
        fl.columnNameNormalize a.name ≠ fl.columnNameNormalize b.name) :
    createIndexesSteps fl ⟨s, s⟩ r = [] := by
  unfold createIndexesSteps
  rw [createdTables_self]
  have h2 : (((tablePairs fl ⟨s, s⟩).filter fun tp =>
      !r.contains (Pair.tables ⟨s, s⟩ tp).next.name).flatMap fun tp =>
        (createdIndexes (Pair.tables ⟨s, s⟩ tp)).map
            (fun i => SqlMigrationStep.createIndex (some tp.previous) tp.next i)
          ++ (if fl.indexesShouldBeRecreatedAfterColumnDrop then
              ((indexPairs (Pair.tables ⟨s, s⟩ tp)).filter fun ip =>
                  ((Pair.tables ⟨s, s⟩ tp).next.indexes.getD ip.next default).columns.any
                    fun c => ((columnPairs fl (Pair.tables ⟨s, s⟩ tp)).filterMap fun ids =>
                      if (allChanges fl (Pair.tables ⟨s, s⟩ tp) ids).2
                          == some ColumnTypeChange.notCastable
                      then some ids.next else none).contains c).map
                fun ip => SqlMigrationStep.createIndex (some tp.previous) tp.next ip.next
            else [])) = [] := by
    refine List.flatMap_eq_nil_iff.mpr ?_
    intro tp htp
    obtain ⟨t, ht, rfl⟩ := mem_tablePairs_self hwft (List.mem_filter.mp htp).1
    have hT : Pair.tables ⟨s, s⟩ (⟨t, t⟩ : Pair Nat)
        = ⟨s.tables.getD t default, s.tables.getD t default⟩ := rfl
    have hmem : s.tables.getD t default ∈ s.tables := by
      rw [List.getD_eq_getElem _ _ ht]
      exact List.getElem_mem _
    have hids : ((columnPairs fl (Pair.tables ⟨s, s⟩ (⟨t, t⟩ : Pair Nat))).filterMap fun ids =>
        if (allChanges fl (Pair.tables ⟨s, s⟩ (⟨t, t⟩ : Pair Nat)) ids).2
            == some ColumnTypeChange.notCastable
        then some ids.next else none) = [] := by
      rw [hT, columnPairs_self fl _ (hwfc _ hmem), List.filterMap_map]
      refine List.filterMap_eq_nil_iff.mpr ?_
      intro c _
      show (if (allChanges fl ⟨s.tables.getD t default, s.tables.getD t default⟩
          (⟨c, c⟩ : Pair Nat)).2 == some ColumnTypeChange.notCastable
        then some (⟨c, c⟩ : Pair Nat).next else none) = none
      rw [allChanges_self fl _ c c rfl]
      rfl
    rw [hT, createdIndexes_self]
    rcases hb : fl.indexesShouldBeRecreatedAfterColumnDrop with _ | _
    · rfl
    · simp only [if_true, List.map_nil, List.nil_append]
      rw [show Pair.tables ⟨s, s⟩ (⟨t, t⟩ : Pair Nat)
        = ⟨s.tables.getD t default, s.tables.getD t default⟩ from rfl] at hids
      rw [List.filter_eq_nil_iff.mpr ?_]
      · rfl
      · intro ip _
        rw [hids]
        simp
  simp only at h2 ⊢
  rw [h2]
  rcases fl.shouldCreateIndexesFromCreatedTables with _ | _ <;> simp

end Prisma

namespace Prisma

theorem alteredTablesSteps_self (fl : Flavour) (s : SqlSchema) (r : List String)
    (hwft : s.tables.Pairwise fun a b =>
      fl.tableNameNormalize a.name ≠ fl.tableNameNormalize b.name)
    (hwfc : ∀ t ∈ s.tables,
      t.columns.Pairwise fun a b =>
        fl.columnNameNormalize a.name ≠ fl.columnNameNormalize b.name) :
    alteredTablesSteps fl ⟨s, s⟩ r = [] := by
  unfold alteredTablesSteps
  refine List.flatMap_eq_nil_iff.mpr ?_
  intro tp htp
  obtain ⟨t, ht, rfl⟩ := mem_tablePairs_self hwft (List.mem_filter.mp htp).1
  have hT : Pair.tables ⟨s, s⟩ (⟨t, t⟩ : Pair Nat)
      = ⟨s.tables.getD t default, s.tables.getD t default⟩ := rfl
  have hmem : s.tables.getD t default ∈ s.tables := by
    rw [List.getD_eq_getElem _ _ ht]
    exact List.getElem_mem _
  simp only [hT, createdForeignKeys_self, droppedForeignKeys_self,
    alterTableChanges_self fl _ (hwfc _ hmem), List.map_nil, List.nil_append,
    List.isEmpty_nil, if_true]

theorem redefineTablesList_nil_r (fl : Flavour) (schemas : Pair SqlSchema) :
    redefineTablesList fl schemas [] = [] := by
  unfold redefineTablesList
  rw [List.filter_eq_nil_iff.mpr ?_]
  · rfl
  · intro tp _
    simp

/-- C2: on a valid schema (distinct table, per-table column, and enum
names under the flavour's identity rules), diffing a schema against
itself yields the empty migration plan, for every flavour and every
`HashSet` iteration order. -/
theorem claim_C2_identity (s : SqlSchema) (fl : Flavour)
    (π : List (Nat × Nat) → List (Nat × Nat))
    (hwf : wellFormed fl s) (hπ : ∀ l, (π l).Perm l) :
    calculate_steps ⟨s, s⟩ fl π = [] := by
  obtain ⟨hwft, hwfc, hwfe⟩ := hwf
  have hπnil : π [] = [] := (hπ []).eq_nil
  have hr : tablesToRedefine fl ⟨s, s⟩ = [] := tablesToRedefine_self fl s hwft
  have hdi : dropIndexesSteps fl ⟨s, s⟩ (tablesToRedefine fl ⟨s, s⟩) π = [] := by
    unfold dropIndexesSteps
    rw [hr, dropIndexesSet_self fl s hwft, hπnil]
    rfl
  have haes : pushPreviousUsages fl ⟨s, s⟩ (alterEnumsOf ⟨s, s⟩) = [] := by
    rw [alterEnumsOf_self s hwfe]
    rfl
  have hredef : redefineTablesList fl ⟨s, s⟩ (tablesToRedefine fl ⟨s, s⟩) = [] := by
    rw [hr, redefineTablesList_nil_r]
  unfold calculate_steps stepBuffer
  simp only
  rw [pushCreateTables_self, dropTablesSteps_self, hdi,
    createIndexesSteps_self fl s _ hwft hwfc, alteredTablesSteps_self fl s _ hwft hwfc,
    createdEnums_self, droppedEnums_self, haes, hredef, alterIndexesList_eq_nil]
  rcases fl.canAlterIndex with _ | _ <;> simp [sortSteps]

end Prisma

namespace Prisma

/-- A schema exercising tables, columns, a primary key, a foreign key, an
index, and an enum used as a default. -/
def exRichSchema : SqlSchema :=
  ⟨[⟨"A", [exIntColumn "id", ⟨"c", .enum "Color", .nullable, some "R", false⟩],
      [⟨"idx", .unique, [0]⟩], [], some [0]⟩,
    ⟨"B", [exIntColumn "aid"], [], [⟨[0], "A", ["id"], "Cascade", "Cascade"⟩], none⟩],
   [⟨"Color", ["R", "G"]⟩]⟩

/-- Witness for C2: the rich schema is well-formed and diffing it against
itself yields no steps. -/
theorem claim_C2_identity_witness :
    wellFormed exFlavour exRichSchema
    ∧ calculate_steps ⟨exRichSchema, exRichSchema⟩ exFlavour id = [] :=
  ⟨by decide,
    claim_C2_identity exRichSchema exFlavour id (by decide) (fun l => List.Perm.refl l)⟩

end Prisma

namespace Prisma

theorem firstMatchIdx_none_iff {α : Type} {p : α → Bool} :
    ∀ {l : List α}, firstMatchIdx p l = none ↔ l.any p = false := by
  intro l
  induction l with
  | nil => simp [firstMatchIdx]
  | cons x xs ih =>
    unfold firstMatchIdx
    rcases hx : p x with _ | _
    · simp [hx, Option.map_eq_none', ih]
    · simp [hx]

theorem table_dropped_or_paired (fl : Flavour) (schemas : Pair SqlSchema) {t : Nat}
    (ht : t < schemas.previous.tables.length) :
    t ∈ droppedTables fl schemas
      ∨ ∃ tn, findTableMatch fl schemas.next.tables
            (schemas.previous.tables.getD t default).name = some tn
          ∧ (⟨t, tn⟩ : Pair Nat) ∈ tablePairs fl schemas := by
  rcases hm : findTableMatch fl schemas.next.tables
      (schemas.previous.tables.getD t default).name with _ | tn
  · left
    unfold droppedTables
    refine List.mem_filter.mpr ⟨List.mem_range.mpr ht, ?_⟩
    have := firstMatchIdx_none_iff.mp hm
    simp only [this]
    rfl
  · right
    refine ⟨tn, rfl, ?_⟩
    unfold tablePairs
    refine List.mem_filterMap.mpr ⟨t, List.mem_range.mpr ht, ?_⟩
    rw [hm]
    rfl

theorem column_dropped_or_paired (fl : Flavour) (tables : Pair Table) {c : Nat}
    (hc : c < tables.previous.columns.length) :
    c ∈ droppedColumns fl tables
      ∨ ∃ cn, findColumnMatch fl tables.next.columns
            (tables.previous.columnAt c).name = some cn
          ∧ (⟨c, cn⟩ : Pair Nat) ∈ columnPairs fl tables := by
  rcases hm : findColumnMatch fl tables.next.columns
      (tables.previous.columnAt c).name with _ | cn
  · left
    unfold droppedColumns
    refine List.mem_filter.mpr ⟨List.mem_range.mpr hc, ?_⟩
    have := firstMatchIdx_none_iff.mp hm
    simp only [this]
    rfl
  · right
    refine ⟨cn, rfl, ?_⟩
    unfold columnPairs
    refine List.mem_filterMap.mpr ⟨c, List.mem_range.mpr hc, ?_⟩
    rw [hm]
    rfl

theorem kind_of_mem_alteredTablesSteps {x : SqlMigrationStep} {fl : Flavour}
    {schemas : Pair SqlSchema} {r : List String}
    (h : x ∈ alteredTablesSteps fl schemas r) :
    stepKind x = 2 ∨ stepKind x = 3 ∨ stepKind x = 5 ∨ stepKind x = 9 ∨ stepKind x = 10 := by
  unfold alteredTablesSteps at h
  obtain ⟨tp, _, hx⟩ := List.mem_flatMap.mp h
  simp only at hx
  rcases List.mem_append.mp hx with h1 | h2
  · rcases List.mem_append.mp h1 with h2 | h2 <;>
      · obtain ⟨fk, _, hfk⟩ := List.mem_map.mp h2
        subst hfk
        simp [stepKind]
  · rcases hc : (alterTableChanges fl (Pair.tables schemas tp)).isEmpty with _ | _
    · rw [hc] at h2
      simp only [Bool.false_eq_true, if_false] at h2
      rcases List.mem_append.mp h2 with h3 | h3
      · obtain ⟨ids, _, hreq⟩ := List.mem_flatMap.mp h3
        obtain ⟨req, _, hx2⟩ := List.mem_map.mp hreq
        subst hx2
        cases req <;> simp [stepKind, IndexChangeRequest.toStep]
      · rcases List.mem_cons.mp h3 with h4 | h4
        · subst h4; simp [stepKind]
        · cases h4
    · rw [hc] at h2
      simp at h2

theorem alterEnum_mem_stepBuffer {fl : Flavour} {schemas : Pair SqlSchema}
    {π : List (Nat × Nat) → List (Nat × Nat)} {ae : AlterEnum}
    (h : SqlMigrationStep.alterEnum ae ∈ stepBuffer schemas fl π) :
    ae ∈ pushPreviousUsages fl schemas (alterEnumsOf schemas) := by
  unfold stepBuffer at h
  simp only at h
  rcases List.mem_append.mp h with h1 | h
  · rcases kind_of_mem_pushCreateTables h1 with h2 | h2 <;> simp [stepKind] at h2
  rcases List.mem_append.mp h with h1 | h
  · rcases kind_of_mem_dropTablesSteps h1 with h2 | h2 <;> simp [stepKind] at h2
  rcases List.mem_append.mp h with h1 | h
  · have := kind_of_mem_dropIndexesSteps h1; simp [stepKind] at this
  rcases List.mem_append.mp h with h1 | h
  · have := kind_of_mem_createIndexesSteps h1; simp [stepKind] at this
  rcases List.mem_append.mp h with h1 | h
  · rcases kind_of_mem_alteredTablesSteps h1 with h2 | h2 | h2 | h2 | h2 <;>
      simp [stepKind] at h2
  rcases List.mem_append.mp h with h1 | h
  · obtain ⟨e, _, he⟩ := List.mem_map.mp h1; cases he
  rcases List.mem_append.mp h with h1 | h
  · obtain ⟨e, _, he⟩ := List.mem_map.mp h1; cases he
  rcases List.mem_append.mp h with h1 | h
  · obtain ⟨ae₀, hae₀, he⟩ := List.mem_map.mp h1
    cases he
    exact hae₀
  rcases List.mem_append.mp h with h1 | h
  · rcases hr : (redefineTablesList fl schemas (tablesToRedefine fl schemas)).isEmpty with _ | _
    · rw [hr] at h1
      simp only [Bool.false_eq_true, if_false] at h1
      rcases List.mem_cons.mp h1 with h2 | h2
      · cases h2
      · cases h2
    · rw [hr] at h1
      simp at h1
  rcases List.mem_append.mp h with h1 | h1 <;>
    · exfalso
      rcases hb : fl.canAlterIndex with _ | _ <;> rw [hb] at h1 <;> simp at h1

end Prisma

namespace Prisma

/-- C8: for every `AlterEnum` step in the output, every previous-schema
column whose type is that enum and which has a default appears in the
step's `previous_usages_as_default` list, paired with the corresponding
next-side (table_id, column_id) when the paired next column still uses
the enum with a default, and with `none` otherwise (including columns of
dropped tables and dropped columns of paired tables). -/
theorem claim_C8_enum_default_usages (schemas : Pair SqlSchema) (fl : Flavour)
    (π : List (Nat × Nat) → List (Nat × Nat)) (ae : AlterEnum)
    (hmem : SqlMigrationStep.alterEnum ae ∈ calculate_steps schemas fl π)
    (t c : Nat) (ht : t < schemas.previous.tables.length)
    (hc : c < (schemas.previous.tables.getD t default).columns.length)
    (henum : ((schemas.previous.tables.getD t default).columnAt c).column_type_is_enum
      (schemas.previous.enums.getD ae.index.previous default).name = true)
    (hdef : ((schemas.previous.tables.getD t default).columnAt c).default.isSome = true) :
    ((t, c), expectedNextUsage fl schemas
        (schemas.next.enums.getD ae.index.next default).name t c)
      ∈ ae.previousUsagesAsDefault := by
  unfold calculate_steps at hmem
  have hae := alterEnum_mem_stepBuffer (mem_sortSteps.mp hmem)
  unfold pushPreviousUsages at hae
  obtain ⟨ae₀, _, hae₀⟩ := List.mem_map.mp hae
  rw [← hae₀] at henum ⊢
  simp only
  refine List.mem_append.mpr ?_
  rcases table_dropped_or_paired fl schemas ht with hdropped | ⟨tn, hfind, hpair⟩
  · left
    have hfind0 : findTableMatch fl schemas.next.tables
        (schemas.previous.tables.getD t default).name = none := by
      unfold findTableMatch
      refine firstMatchIdx_none_iff.mpr ?_
      have h2 := (List.mem_filter.mp hdropped).2
      simpa using h2
    have hexp : expectedNextUsage fl schemas
        (schemas.next.enums.getD ae₀.index.next default).name t c = none := by
      unfold expectedNextUsage
      rw [hfind0]
    rw [hexp]
    refine List.mem_flatMap.mpr ⟨t, hdropped, ?_⟩
    refine List.mem_map.mpr ⟨c, ?_, rfl⟩
    refine List.mem_filter.mpr ⟨List.mem_range.mpr hc, ?_⟩
    simp only [Bool.and_eq_true]
    exact ⟨henum, hdef⟩
  · right
    refine List.mem_flatMap.mpr ⟨⟨t, tn⟩, hpair, ?_⟩
    have hTprev : (Pair.tables schemas (⟨t, tn⟩ : Pair Nat)).previous
        = schemas.previous.tables.getD t default := rfl
    rcases column_dropped_or_paired fl (Pair.tables schemas ⟨t, tn⟩)
        (c := c) (by rw [hTprev]; exact hc) with hcdropped | ⟨cn, hcfind, hcpair⟩
    · have hexp : expectedNextUsage fl schemas
          (schemas.next.enums.getD ae₀.index.next default).name t c = none := by
        unfold expectedNextUsage
        rw [hfind]
        simp only
        rw [show findColumnMatch fl (Pair.tables schemas (⟨t, tn⟩ : Pair Nat)).next.columns
            ((Pair.tables schemas (⟨t, tn⟩ : Pair Nat)).previous.columnAt c).name = none
          from by
            unfold findColumnMatch
            refine firstMatchIdx_none_iff.mpr ?_
            have h2 := (List.mem_filter.mp hcdropped).2
            simpa using h2]
      rw [hexp]
      refine List.mem_append.mpr (Or.inl ?_)
      refine List.mem_map.mpr ⟨c, ?_, rfl⟩
      refine List.mem_filter.mpr ⟨hcdropped, ?_⟩
      simp only [Bool.and_eq_true]
      exact ⟨henum, hdef⟩
    · have hexp : expectedNextUsage fl schemas
          (schemas.next.enums.getD ae₀.index.next default).name t c
          = (if ((Pair.tables schemas (⟨t, tn⟩ : Pair Nat)).next.columnAt
                  cn).column_type_is_enum
                (schemas.next.enums.getD ae₀.index.next default).name
              && ((Pair.tables schemas (⟨t, tn⟩ : Pair Nat)).next.columnAt cn).default.isSome
            then some (tn, cn) else none) := by
        unfold expectedNextUsage
        rw [hfind]
        simp only
        rw [hcfind]
      rw [hexp]
      refine List.mem_append.mpr (Or.inr ?_)
      refine List.mem_map.mpr ⟨⟨c, cn⟩, ?_, rfl⟩
      refine List.mem_filter.mpr ⟨hcpair, ?_⟩
      simp only [Bool.and_eq_true]
      exact ⟨henum, hdef⟩

end Prisma

namespace Prisma

/-- Scenario 5 of the spec: enum `Color` gains a value while column `T.c`
uses it as a default on both sides. -/
def exEnumPair : Pair SqlSchema :=
  ⟨⟨[⟨"T", [⟨"c", .enum "Color", .required, some "R", false⟩], [], [], none⟩],
    [⟨"Color", ["R", "G"]⟩]⟩,
   ⟨[⟨"T", [⟨"c", .enum "Color", .required, some "R", false⟩], [], [], none⟩],
    [⟨"Color", ["R", "G", "B"]⟩]⟩⟩

/-- Witness for C8: the single `AlterEnum` of scenario 5 records the
previous usage of the default, paired with its next-side ids. -/
theorem claim_C8_enum_default_usages_witness :
    (SqlMigrationStep.alterEnum ⟨⟨0, 0⟩, [((0, 0), some (0, 0))]⟩
        ∈ calculate_steps exEnumPair exFlavour id
      ∧ ((exEnumPair.previous.tables.getD 0 default).columnAt 0).column_type_is_enum
          (exEnumPair.previous.enums.getD 0 default).name = true
      ∧ ((exEnumPair.previous.tables.getD 0 default).columnAt 0).default.isSome = true)
    ∧ ((0, 0), expectedNextUsage exFlavour exEnumPair
        (exEnumPair.next.enums.getD 0 default).name 0 0)
      ∈ (⟨⟨0, 0⟩, [((0, 0), some (0, 0))]⟩ : AlterEnum).previousUsagesAsDefault :=
  ⟨⟨by decide, by decide, by decide⟩,
    claim_C8_enum_default_usages exEnumPair exFlavour id ⟨⟨0, 0⟩, [((0, 0), some (0, 0))]⟩
      (by decide) 0 0 (by decide) (by decide) (by decide) (by decide)⟩

end Prisma
